import Mathlib

/-!
Verification development for the Cornucopia grocery-list engine
(`src/shopping_list.py`, `src/ingredient_processor.py`, `src/store_data.py`,
`src/export_utils.py`, `src/Convert_units.py`).

Python strings are modelled as lists of Unicode code points (`List Nat`),
Python floats as exact rationals (`ℚ`), and Python dicts as insertion-ordered
association lists.  `round` is modelled as exact half-even decimal rounding;
the binary-float representation error of CPython floats is outside the model.
-/

set_option maxRecDepth 8000

namespace DDM

/-- A Python string, as its list of Unicode code points. -/
abbrev PyStr := List Nat

/-- Code points of a Lean string literal. -/
def strL (s : String) : PyStr := s.toList.map Char.toNat

/-- Whitespace test used by `str.strip` / `str.split` (space, tab, LF, CR;
the exotic Unicode whitespace code points never occur in the repository's
data). -/
def isWs (n : Nat) : Bool := n = 32 || n = 9 || n = 10 || n = 13

/-- ASCII decimal digit test. -/
def isDigit (n : Nat) : Bool := 48 ≤ n && n ≤ 57

/-- `str.lower` on one code point (ASCII range; the repository's ingredient
and unit text is ASCII). -/
def pyCharLower (n : Nat) : Nat := if 65 ≤ n ∧ n ≤ 90 then n + 32 else n

/-- `str.lower`. -/
def pyLower (s : PyStr) : PyStr := s.map pyCharLower

/-- `str.lstrip()`. -/
def stripLeft (s : PyStr) : PyStr := s.dropWhile isWs

/-- `str.rstrip()`. -/
def stripRight (s : PyStr) : PyStr := (s.reverse.dropWhile isWs).reverse

/-- `str.strip()`. -/
def pyStrip (s : PyStr) : PyStr := stripRight (stripLeft s)

/-- One step of `str.split()` (fold from the right): a whitespace character
opens a new (possibly empty) group, a non-whitespace character is prepended
to the current group. -/
def splitC (c : Nat) (acc : List PyStr) : List PyStr :=
  if isWs c then [] :: acc
  else
    match acc with
    | [] => [[c]]
    | w :: ws => (c :: w) :: ws

/-- `str.split()` with no argument: split on whitespace runs, discarding
empty groups. -/
def pySplit (s : PyStr) : List PyStr := (s.foldr splitC []).filter (fun w => !w.isEmpty)

/-- `" ".join(words)`. -/
def pyJoinSpace : List PyStr → PyStr
  | [] => []
  | [w] => w
  | w :: ws => w ++ 32 :: pyJoinSpace ws

/-- Does the string begin with the pattern? -/
def startsWith : PyStr → PyStr → Bool
  | _, [] => true
  | [], _ :: _ => false
  | c :: cs, p :: ps => c == p && startsWith cs ps

/-- Python's substring test `pat in s`. -/
def containsSub : PyStr → PyStr → Bool
  | [], pat => startsWith [] pat
  | c :: cs, pat => startsWith (c :: cs) pat || containsSub cs pat

/-- Fuelled worker for `str.replace`: replaces non-overlapping occurrences
left to right.  Each step consumes at least one character, so fuel
`s.length + 1` always suffices. -/
def pyReplaceF : Nat → PyStr → PyStr → PyStr → PyStr
  | 0, s, _, _ => s
  | _ + 1, [], _, _ => []
  | fuel + 1, c :: cs, pat, repl =>
    if pat ≠ [] ∧ startsWith (c :: cs) pat then
      repl ++ pyReplaceF fuel ((c :: cs).drop pat.length) pat repl
    else
      c :: pyReplaceF fuel cs pat repl

/-- `s.replace(pat, repl)`.  The source only ever calls `replace` with a
non-empty pattern, which is the case modelled here. -/
def pyReplace (s pat repl : PyStr) : PyStr := pyReplaceF (s.length + 1) s pat repl

end DDM

namespace DDM

/-- Numeric value of a digit string. -/
def digitsVal (l : PyStr) : ℕ := l.foldl (fun a d => a * 10 + (d - 48)) 0

/-- Mantissa of `float(s)` after the optional sign: digits with at most one
decimal point and at least one digit. -/
def pyFloatBody? (sign : ℚ) (t1 : PyStr) : Option ℚ :=
  let ip := t1.takeWhile isDigit
  let rest := t1.dropWhile isDigit
  match rest with
  | [] => if ip.isEmpty then none else some (sign * (digitsVal ip : ℚ))
  | 46 :: r2 =>
    let fp := r2.takeWhile isDigit
    if !(r2.dropWhile isDigit).isEmpty then none
    else if ip.isEmpty && fp.isEmpty then none
    else some (sign * ((digitsVal ip : ℚ) + (digitsVal fp : ℚ) / (10 : ℚ) ^ fp.length))
  | _ => none

/-- Python's `float(s)` on the plain decimal fragment (optional surrounding
whitespace, optional sign, digits with at most one decimal point).
Scientific notation, `inf`/`nan` and digit underscores are accepted by
CPython but never occur in recipe text, and lie outside this model. -/
def pyFloat? (s : PyStr) : Option ℚ :=
  match pyStrip s with
  | 45 :: r => pyFloatBody? (-1) r
  | 43 :: r => pyFloatBody? 1 r
  | t => pyFloatBody? 1 t

/-- Python 3's bankers rounding of a rational to the nearest integer
(ties to even); `Int.fdiv x.num x.den` is the floor and
`x.num - floor * x.den` the numerator of the fractional part. -/
def roundHalfEven (x : ℚ) : ℤ :=
  if 2 * (x.num - Int.fdiv x.num (x.den : ℤ) * (x.den : ℤ)) < (x.den : ℤ) then
    Int.fdiv x.num (x.den : ℤ)
  else if (x.den : ℤ) < 2 * (x.num - Int.fdiv x.num (x.den : ℤ) * (x.den : ℤ)) then
    Int.fdiv x.num (x.den : ℤ) + 1
  else if Int.fdiv x.num (x.den : ℤ) % 2 = 0 then Int.fdiv x.num (x.den : ℤ)
  else Int.fdiv x.num (x.den : ℤ) + 1

/-- `round(x, nd)` on exact rationals. -/
def pyRound (x : ℚ) (nd : ℕ) : ℚ := (roundHalfEven (x * (10 : ℚ) ^ nd) : ℚ) / (10 : ℚ) ^ nd

/-- Ordered-dict lookup (`key in d` / `d[key]`). -/
def alookup {α β : Type _} [DecidableEq α] : List (α × β) → α → Option β
  | [], _ => none
  | (k, v) :: rest, key => if key = k then some v else alookup rest key

/-- Ordered-dict assignment `d[k] = v`: an existing key keeps its position,
a new key is appended. -/
def aset {α β : Type _} [DecidableEq α] : List (α × β) → α → β → List (α × β)
  | [], k, v => [(k, v)]
  | (k0, v0) :: rest, k, v =>
    if k = k0 then (k, v) :: rest else (k0, v0) :: aset rest k v

/-- In-place update of the value stored at a key (no-op if absent). -/
def updateAt {α β : Type _} [DecidableEq α] : List (α × β) → α → (β → β) → List (α × β)
  | [], _, _ => []
  | (k0, v0) :: rest, k, f =>
    if k = k0 then (k0, f v0) :: rest else (k0, v0) :: updateAt rest k f

end DDM

namespace DDM

/-! ### `ingredient_processor.py` -/

/-- Result record of `parse_ingredient_line`. -/
structure Parsed where
  quantity : ℚ
  unit : PyStr
  item : PyStr
  preparation : Option PyStr
deriving DecidableEq

/-- Preparation keywords scanned by `parse_ingredient_line`. -/
def prepWords : List PyStr := [strL "diced", strL "chopped", strL "minced", strL "sliced"]

/-- The `for prep in prep_words` loop of `parse_ingredient_line`: the first
keyword occurring in the lowercased item is recorded and stripped
(`item.lower().replace(prep, '').strip()`), then the loop breaks. -/
def prepScan : List PyStr → PyStr → PyStr × Option PyStr
  | [], item => (item, none)
  | w :: ws, item =>
    if containsSub (pyLower item) w then
      (pyStrip (pyReplace (pyLower item) w []), some w)
    else prepScan ws item

/-- `parse_ingredient_line` from `ingredient_processor.py`. -/
def parse_ingredient_line (s : PyStr) : Parsed :=
  if s = [] then ⟨0, strL "each", [], none⟩
  else
    let parts := pySplit (pyStrip s)
    let quI : ℚ × PyStr × PyStr :=
      match parts with
      | [] => (1, strL "each", s)
      | p0 :: rest =>
        match pyFloat? p0, rest with
        | none, _ => (1, strL "each", s)
        | some qv, p1 :: p2 :: r2 => (qv, pyLower p1, pyJoinSpace (p2 :: r2))
        | some qv, [p1] => (qv, strL "each", p1)
        | some qv, [] => (qv, strL "each", s)
    let scanned := prepScan prepWords quI.2.2
    ⟨quI.1, quI.2.1, pyStrip (pyLower scanned.1), scanned.2⟩

/-- Descriptor words removed by `normalize_ingredient_name`. -/
def removeWords : List PyStr :=
  [strL "fresh", strL "organic", strL "ripe", strL "kosher", strL "sea",
   strL "extra", strL "virgin", strL "raw", strL "whole"]

/-- Synonym table of `normalize_ingredient_name`. -/
def synonyms : List (PyStr × PyStr) :=
  [(strL "green onion", strL "scallion"), (strL "spring onion", strL "scallion"),
   (strL "cilantro", strL "coriander"), (strL "roma tomato", strL "tomato"),
   (strL "plum tomato", strL "tomato")]

/-- `normalize_ingredient_name` from `ingredient_processor.py`: lowercase and
trim, remove descriptor substrings, collapse whitespace, apply the synonym
table, drop a trailing letter s when longer than three characters. -/
def normalize_ingredient_name (raw : PyStr) : PyStr :=
  if pyStrip raw = [] then []
  else
    let name0 := pyLower (pyStrip raw)
    let name1 := removeWords.foldl (fun n w => pyReplace n w []) name0
    let name2 := pyJoinSpace (pySplit name1)
    let name3 := (alookup synonyms name2).getD name2
    let name4 :=
      if 3 < name3.length ∧ name3.getLast? = some 115 then name3.dropLast else name3
    pyStrip name4

/-! ### `Convert_units.py` -/

/-- Volume family, in tablespoons. -/
def volume_to_tbsp : List (PyStr × ℚ) :=
  [(strL "cup", 16), (strL "cups", 16), (strL "tbsp", 1),
   (strL "tablespoon", 1), (strL "tsp", 1/3), (strL "teaspoon", 1/3)]

/-- Weight family, in ounces. -/
def weight_to_oz : List (PyStr × ℚ) :=
  [(strL "lb", 16), (strL "pound", 16), (strL "oz", 1), (strL "ounce", 1)]

/-- `convert_units` from `Convert_units.py` (the copy in
`ingredient_processor.py` is textually identical). -/
def convert_units (quantity : ℚ) (from_unit to_unit : PyStr) : ℚ :=
  let f := pyLower from_unit
  let t := pyLower to_unit
  if f = t then quantity
  else
    match alookup volume_to_tbsp f, alookup volume_to_tbsp t with
    | some a, some b => pyRound (quantity * a / b) 2
    | _, _ =>
      match alookup weight_to_oz f, alookup weight_to_oz t with
      | some a, some b => pyRound (quantity * a / b) 2
      | _, _ => quantity

/-! ### `shopping_list.py` -/

/-- A `TypeError` raised by `compile_shopping_list`. -/
inductive PyErr where
  | typeError (msg : String)
deriving DecidableEq

/-- A caller-supplied value that ought to be a Python list: either an actual
list or a value of some other runtime type. -/
inductive PyListArg (α : Type _) where
  | ok (l : List α)
  | notList
deriving DecidableEq

/-- A caller-supplied value that ought to be a Python dict. -/
inductive PyDictArg (α β : Type _) where
  | ok (d : List (α × β))
  | notDict
deriving DecidableEq

/-- One recipe record as consumed by `compile_shopping_list`:
`str(recipe.get("name", "Unknown"))` and the raw `ingredients` field. -/
structure PyRecipe where
  name : String
  ingredients : PyListArg PyStr
deriving DecidableEq

/-- One aggregated shopping-list entry. `notes` is `none` while the dict has
no `notes` key. -/
structure Entry where
  quantity : ℚ
  unit : PyStr
  recipes : List String
  notes : Option PyStr
deriving DecidableEq

/-- `_simple_parse` nested inside `compile_shopping_list`.  A quantity parse
failure in the three-token branch falls through to the two-token branch,
retries the same first token, fails again, and lands on the final
whole-line fallback. -/
def simpleParse (line : PyStr) : ℚ × PyStr × PyStr :=
  if line = [] then (1, strL "each", strL "unknown")
  else
    let parts := pySplit (pyStrip line)
    match parts with
    | p0 :: p1 :: p2 :: rest =>
      (match pyFloat? p0 with
       | some qty => (qty, pyLower p1, pyLower (pyStrip (pyJoinSpace (p2 :: rest))))
       | none => (1, strL "each", pyLower (pyJoinSpace (p0 :: p1 :: p2 :: rest))))
    | [p0, p1] =>
      (match pyFloat? p0 with
       | some qty => (qty, strL "each", pyLower (pyStrip (pyJoinSpace [p1])))
       | none => (1, strL "each", pyLower (pyJoinSpace [p0, p1])))
    | parts0 => (1, strL "each", pyLower (pyJoinSpace parts0))

/-- The apostrophe code point used in the unit-mismatch note. -/
def quoteCh : Nat := 39

/-- The f-string appended to `notes` on a unit mismatch. -/
def mismatchNote (stored seen : PyStr) : PyStr :=
  strL " | unit mismatch kept as " ++ quoteCh :: stored ++
    quoteCh :: strL ", saw " ++ quoteCh :: seen ++ [quoteCh]

/-- Body of the `for raw in ingredients` loop of `compile_shopping_list`. -/
def addIngredientLine (sh : List (PyStr × Entry)) (name : String) (servings : ℚ)
    (raw : PyStr) : List (PyStr × Entry) :=
  let p := simpleParse raw
  let scaled := p.1 * servings
  match alookup sh p.2.2 with
  | some entry =>
    let e1 : Entry :=
      if entry.unit = p.2.1 then { entry with quantity := entry.quantity + scaled }
      else
        { entry with
          quantity := entry.quantity + scaled,
          notes := some (pyStrip ((entry.notes.getD []) ++ mismatchNote entry.unit p.2.1)) }
    let e2 : Entry :=
      if name ∈ e1.recipes then e1 else { e1 with recipes := e1.recipes ++ [name] }
    aset sh p.2.2 e2
  | none => sh ++ [(p.2.2, ⟨scaled, p.2.1, [name], none⟩)]

/-- Body of the `for recipe in recipe_list` loop: a recipe whose
`ingredients` field is not a list is skipped (`continue`). -/
def processRecipe (sdict : List (String × ℚ)) (sh : List (PyStr × Entry))
    (r : PyRecipe) : List (PyStr × Entry) :=
  let servings := (alookup sdict r.name).getD 1
  match r.ingredients with
  | .notList => sh
  | .ok lines => lines.foldl (fun s raw => addIngredientLine s r.name servings raw) sh

/-- `compile_shopping_list` from `shopping_list.py`: type-checks its two
arguments, folds every recipe into the accumulator, and finally rounds each
quantity to three decimals. -/
def compile_shopping_list (recipe_list : PyListArg PyRecipe)
    (num_servings_dict : PyDictArg String ℚ) :
    Except PyErr (List (PyStr × Entry)) :=
  match recipe_list with
  | .notList => .error (.typeError "recipe_list must be a list")
  | .ok recipes =>
    match num_servings_dict with
    | .notDict => .error (.typeError "num_servings_dict must be a dict")
    | .ok sdict =>
      let sh := recipes.foldl (processRecipe sdict) []
      .ok (sh.map fun p => (p.1, { p.2 with quantity := pyRound p.2.quantity 3 }))

/-! ### `store_data.py` -/

/-- One store-inventory record; only `price` is read by the pricer
(`price_info.get('price', 0.0)`), the remaining CSV fields are opaque. -/
structure StoreItem where
  price : Option ℚ
deriving DecidableEq

/-- One row of the itemized breakdown. -/
structure ItemizedRow where
  quantity : ℚ
  unit : PyStr
  unit_price : ℚ
  total : ℚ
deriving DecidableEq

/-- Result record of `calculate_shopping_list_total`. -/
structure TotalResult where
  total : ℚ
  itemized : List (PyStr × ItemizedRow)
  not_found : List PyStr
deriving DecidableEq

/-- The shared add-to-itemized step of `calculate_shopping_list_total`. -/
def addRow (acc : ℚ × List (PyStr × ItemizedRow) × List PyStr) (item : PyStr)
    (data : Entry) (price_info : StoreItem) :
    ℚ × List (PyStr × ItemizedRow) × List PyStr :=
  let unit_price := price_info.price.getD 0
  let item_total := data.quantity * unit_price
  (acc.1 + item_total,
   aset acc.2.1 item ⟨data.quantity, data.unit, unit_price, pyRound item_total 2⟩,
   acc.2.2)

/-- The plural/singular retry of `calculate_shopping_list_total`:
`item + "s"` first, then the singular form when the item ends in `s`. -/
def pluralLookup (inv : List (PyStr × StoreItem)) (item : PyStr) : Option StoreItem :=
  match alookup inv (item ++ [115]) with
  | some pi => some pi
  | none => if item.getLast? = some 115 then alookup inv item.dropLast else none

/-- Body of the `for item_name, item_data in shopping_list.items()` loop. -/
def calcStep (inv : List (PyStr × StoreItem))
    (acc : ℚ × List (PyStr × ItemizedRow) × List PyStr) (p : PyStr × Entry) :
    ℚ × List (PyStr × ItemizedRow) × List PyStr :=
  match alookup inv p.1 with
  | some price_info => addRow acc p.1 p.2 price_info
  | none =>
    match pluralLookup inv p.1 with
    | some price_info => addRow acc p.1 p.2 price_info
    | none => (acc.1, acc.2.1, acc.2.2 ++ [p.1])

/-- `calculate_shopping_list_total` from `store_data.py`. -/
def calculate_shopping_list_total (shopping : List (PyStr × Entry))
    (inv : List (PyStr × StoreItem)) : TotalResult :=
  let acc := shopping.foldl (calcStep inv) (0, [], [])
  ⟨pyRound acc.1 2, acc.2.1, acc.2.2⟩

/-- The three-stage lookup actually performed per item: verbatim, then the
plural/singular retries.  `calcStep` adds a row exactly when this is
`some`. -/
def lookup3 (inv : List (PyStr × StoreItem)) (item : PyStr) : Option StoreItem :=
  match alookup inv item with
  | some pi => some pi
  | none => pluralLookup inv item

/-- `find_item_price` from `store_data.py` (helper with the opposite retry
order: singular before plural). -/
def find_item_price (item_name : PyStr) (store_inventory : List (PyStr × StoreItem)) :
    Option StoreItem :=
  let key := pyLower (pyStrip item_name)
  if key = [] then none
  else
    match alookup store_inventory key with
    | some v => some v
    | none =>
      if key.getLast? = some 115 ∧ (alookup store_inventory key.dropLast).isSome then
        alookup store_inventory key.dropLast
      else alookup store_inventory (key ++ [115])

/-- A per-store total: a number, or the `float('inf')` sentinel given to a
store whose inventory could not be loaded. -/
inductive ETotal where
  | fin (q : ℚ)
  | inf
deriving DecidableEq

/-- Comparison on totals (`float('inf')` is above every number). -/
def ETotal.le : ETotal → ETotal → Prop
  | .fin a, .fin b => a ≤ b
  | _, .inf => True
  | .inf, .fin _ => False

instance : DecidableRel ETotal.le := fun a b => by
  cases a <;> cases b <;> simp only [ETotal.le] <;> infer_instance

/-- One store's summary in the comparison result. -/
structure StoreSummary where
  total : ETotal
  items_found : ℕ
  items_missing : ℕ
deriving DecidableEq

/-- The sort key of `compare_store_totals`
(`key=lambda x: x[1]['total']`). -/
def byTotal (a b : String × StoreSummary) : Prop := ETotal.le a.2.total b.2.total

instance : DecidableRel byTotal := fun a b =>
  inferInstanceAs (Decidable (ETotal.le a.2.total b.2.total))

instance : IsTotal (String × StoreSummary) byTotal :=
  ⟨by
    intro a b
    unfold byTotal
    rcases a.2.total with q | _ <;> rcases b.2.total with q2 | _ <;>
      simp only [ETotal.le] <;> first | exact le_total _ _ | tauto⟩

instance : IsTrans (String × StoreSummary) byTotal :=
  ⟨by
    intro a b c
    unfold byTotal
    rcases a.2.total with q | _ <;> rcases b.2.total with q2 | _ <;>
      rcases c.2.total with q3 | _ <;> simp only [ETotal.le] <;>
      first
      | exact fun h1 h2 => le_trans h1 h2
      | exact fun _ _ => trivial
      | exact fun h _ => h.elim
      | exact fun _ h => h.elim⟩

/-- Outcome of `load_store_data(store_name)` as observed by
`compare_store_totals`: a loaded inventory, or any of the caught failures
(`FileNotFoundError`, per-store processing exception). -/
inductive LoadResult where
  | ok (inv : List (PyStr × StoreItem))
  | err

/-- The per-store summary computed inside the `try`/`except` of
`compare_store_totals`: a loaded store is priced with
`calculate_shopping_list_total`, a failed store receives the
infinity-total sentinel. -/
def storeSummary (shopping : List (PyStr × Entry)) (load : String → LoadResult)
    (s : String) : StoreSummary :=
  match load s with
  | .ok inv =>
    let result := calculate_shopping_list_total shopping inv
    ⟨.fin result.total, result.itemized.length, result.not_found.length⟩
  | .err => ⟨.inf, 0, shopping.length⟩

/-- `compare_store_totals` from `store_data.py`, parameterised by the
inventory-loading collaborator.  Python's `sorted` is stable; so is
insertion sort. -/
def compare_store_totals (shopping : List (PyStr × Entry)) (store_list : List String)
    (load : String → LoadResult) : List (String × StoreSummary) :=
  let comparison :=
    store_list.foldl (fun comp s => aset comp s (storeSummary shopping load s)) []
  List.insertionSort byTotal comparison

/-! ### `export_utils.py` categorizer

`main.py` imports `group_items_by_category` from `export_utils.py`; the
older copy in `Items_Category.py` (exact-match keywords, seven lowercase
categories) is superseded scratch code and is not imported anywhere. -/

/-- `CATEGORY_MAP` from `export_utils.group_items_by_category`. -/
def CATEGORY_MAP : List (PyStr × List PyStr) :=
  [(strL "Produce",
    [strL "tomato", strL "lettuce", strL "onion", strL "garlic", strL "carrot",
     strL "celery", strL "pepper", strL "cucumber", strL "potato", strL "broccoli",
     strL "spinach", strL "mushroom", strL "zucchini", strL "squash", strL "cabbage",
     strL "corn", strL "peas"]),
   (strL "Dairy",
    [strL "milk", strL "cheese", strL "butter", strL "yogurt", strL "cream",
     strL "sour cream", strL "cottage cheese", strL "cream cheese", strL "parmesan",
     strL "mozzarella", strL "cheddar", strL "eggs"]),
   (strL "Meat & Seafood",
    [strL "chicken", strL "beef", strL "pork", strL "turkey", strL "fish",
     strL "salmon", strL "shrimp", strL "tuna", strL "bacon", strL "sausage",
     strL "ground beef", strL "chicken breast", strL "steak"]),
   (strL "Canned Goods",
    [strL "tomato paste", strL "tomato sauce", strL "beans", strL "corn",
     strL "soup", strL "broth", strL "stock", strL "tuna", strL "olives",
     strL "pickles"]),
   (strL "Pasta & Grains",
    [strL "pasta", strL "rice", strL "flour", strL "bread", strL "tortilla",
     strL "quinoa", strL "oats", strL "cereal", strL "noodles", strL "spaghetti",
     strL "macaroni"]),
   (strL "Spices & Seasonings",
    [strL "salt", strL "pepper", strL "cumin", strL "paprika", strL "oregano",
     strL "basil", strL "thyme", strL "rosemary", strL "garlic powder",
     strL "onion powder", strL "cinnamon", strL "vanilla", strL "chili powder",
     strL "cayenne"]),
   (strL "Baking",
    [strL "sugar", strL "baking soda", strL "baking powder", strL "vanilla extract",
     strL "yeast", strL "chocolate chips", strL "cocoa powder", strL "brown sugar",
     strL "powdered sugar", strL "honey", strL "syrup"]),
   (strL "Condiments & Sauces",
    [strL "ketchup", strL "mustard", strL "mayonnaise", strL "hot sauce",
     strL "soy sauce", strL "vinegar", strL "oil", strL "olive oil",
     strL "vegetable oil", strL "dressing", strL "salsa", strL "bbq sauce"]),
   (strL "Frozen",
    [strL "frozen vegetables", strL "ice cream", strL "frozen pizza",
     strL "frozen fruit"]),
   (strL "Beverages",
    [strL "water", strL "juice", strL "soda", strL "coffee", strL "tea",
     strL "wine", strL "beer"])]

/-- The initial bucket dict of `group_items_by_category`: the ten category
names in table order, then `Other`, all empty. -/
def initBuckets : List (PyStr × List (PyStr × Entry)) :=
  (CATEGORY_MAP.map fun p => (p.1, ([] : List (PyStr × Entry)))) ++ [(strL "Other", [])]

/-- The `for category, keywords in CATEGORY_MAP.items()` loop: first
category one of whose keywords occurs in the lowercased item name. -/
def findCat : List (PyStr × List PyStr) → PyStr → Option PyStr
  | [], _ => none
  | (cat, kws) :: rest, il =>
    if kws.any (fun kw => containsSub il kw) then some cat else findCat rest il

/-- `group_items_by_category` from `export_utils.py`. -/
def group_items_by_category (shopping : List (PyStr × Entry)) :
    List (PyStr × List (PyStr × Entry)) :=
  let filled := shopping.foldl
    (fun cs p =>
      let cat := (findCat CATEGORY_MAP (pyLower p.1)).getD (strL "Other")
      updateAt cs cat (fun d => aset d p.1 p.2))
    initBuckets
  filled.filter (fun b => !b.2.isEmpty)

/-- Specification-side classification: the first category of the keyword
table, in table order, one of whose keywords is a substring of the
lowercased item name; `Other` when none matches. -/
def specCategory (item : PyStr) : PyStr :=
  ((CATEGORY_MAP.find? fun cp =>
      cp.2.any fun kw => containsSub (pyLower item) kw).map Prod.fst).getD (strL "Other")

/-! ### Predicates used by the theorems -/

/-- The string is its own whitespace-collapsed form. -/
def Collapsed (r : PyStr) : Prop := pyJoinSpace (pySplit r) = r

/-- Every code point is fixed by lowercasing. -/
def LowerFixed (r : PyStr) : Prop := ∀ c ∈ r, pyCharLower c = c

/-- Load oracle used by the C5 witness. -/
def loadW : String → LoadResult :=
  fun s => if s = "giant" then .ok [(strL "milk", ⟨some 3⟩)] else .err

/-! Closed forms of the pricing fold, used to state its invariants. -/

/-- The itemized row built for a priced shopping-list entry. -/
def rowOf (p : PyStr × Entry) (price_info : StoreItem) : ItemizedRow :=
  ⟨p.2.quantity, p.2.unit, price_info.price.getD 0,
   pyRound (p.2.quantity * price_info.price.getD 0) 2⟩

/-- All priced rows of a run of `calculate_shopping_list_total`. -/
def calcRows (inv : List (PyStr × StoreItem)) (sh : List (PyStr × Entry)) :
    List (PyStr × ItemizedRow) :=
  sh.filterMap fun p => (lookup3 inv p.1).map fun price_info => (p.1, rowOf p price_info)

/-- All missed item names of a run of `calculate_shopping_list_total`. -/
def calcMisses (inv : List (PyStr × StoreItem)) (sh : List (PyStr × Entry)) : List PyStr :=
  (sh.filter fun p => (lookup3 inv p.1).isNone).map Prod.fst

/-- The un-rounded grand total of a run of `calculate_shopping_list_total`. -/
def calcSum (inv : List (PyStr × StoreItem)) (sh : List (PyStr × Entry)) : ℚ :=
  (sh.map fun p =>
    match lookup3 inv p.1 with
    | some price_info => p.2.quantity * price_info.price.getD 0
    | none => 0).sum

end DDM

deriving instance DecidableEq for Except

namespace DDM


/-! ### Association-list lemmas -/

theorem alookup_aset_self {α β : Type _} [DecidableEq α] (l : List (α × β)) (k : α) (v : β) :
    alookup (aset l k v) k = some v := by
  induction l with
  | nil => simp [aset, alookup]
  | cons hd tl ih =>
    by_cases h : k = hd.1
    · simp [aset, alookup, h]
    · simp only [aset, alookup]
      rw [if_neg (by exact h)]
      simp [alookup, if_neg h, ih]

theorem aset_of_not_mem {α β : Type _} [DecidableEq α] (l : List (α × β)) (k : α) (v : β)
    (h : k ∉ l.map Prod.fst) : aset l k v = l ++ [(k, v)] := by
  induction l with
  | nil => simp [aset]
  | cons hd tl ih =>
    simp only [List.map_cons, List.mem_cons] at h
    push_neg at h
    simp only [aset, if_neg h.1, List.cons_append, List.cons.injEq, true_and]
    exact ih h.2

theorem mem_keys_aset {α β : Type _} [DecidableEq α] (l : List (α × β)) (k k' : α) (v : β)
    (h : k' ∈ (aset l k v).map Prod.fst) : k' ∈ l.map Prod.fst ∨ k' = k := by
  induction l with
  | nil => simp [aset] at h; simp [h]
  | cons hd tl ih =>
    by_cases hk : k = hd.1
    · simp only [aset, if_pos hk, List.map_cons, List.mem_cons] at h
      rcases h with h | h
      · right; rw [h]
      · left; simp [h]
    · simp only [aset, if_neg hk, List.map_cons, List.mem_cons] at h
      rcases h with h | h
      · left; simp [h]
      · rcases ih h with h2 | h2
        · left; simp [h2]
        · right; exact h2

theorem alookup_eq_none_iff {α β : Type _} [DecidableEq α] (l : List (α × β)) (k : α) :
    alookup l k = none ↔ k ∉ l.map Prod.fst := by
  induction l with
  | nil => simp [alookup]
  | cons hd tl ih =>
    by_cases h : k = hd.1
    · simp [alookup, h]
    · simp [alookup, if_neg h, ih, h]

theorem alookup_mem {α β : Type _} [DecidableEq α] (l : List (α × β)) (k : α) (v : β)
    (h : alookup l k = some v) : (k, v) ∈ l := by
  induction l with
  | nil => simp [alookup] at h
  | cons hd tl ih =>
    by_cases hk : k = hd.1
    · simp only [alookup, if_pos hk, Option.some.injEq] at h
      have hkv : (k, v) = hd := by rw [hk, ← h]
      rw [hkv]
      exact List.mem_cons_self hd tl
    · simp only [alookup, if_neg hk] at h
      exact List.mem_cons_of_mem _ (ih h)

theorem alookup_mem_keys {α β : Type _} [DecidableEq α] (l : List (α × β)) (k : α) (v : β)
    (h : alookup l k = some v) : k ∈ l.map Prod.fst := by
  have := alookup_mem l k v h
  exact List.mem_map_of_mem Prod.fst this

theorem alookup_append {α β : Type _} [DecidableEq α] (l1 l2 : List (α × β)) (k : α) :
    alookup (l1 ++ l2) k =
      match alookup l1 k with
      | some v => some v
      | none => alookup l2 k := by
  induction l1 with
  | nil => simp [alookup]
  | cons hd tl ih =>
    by_cases h : k = hd.1
    · simp [alookup, h]
    · simp [alookup, if_neg h, ih]

/-! ### C1: the aggregator's unit-mismatch branch -/

/-- C1 (amended): when a parsed ingredient line hits an existing item whose
stored unit differs from the incoming unit, `compile_shopping_list` keeps
the stored unit, adds the raw servings-scaled quantity without calling the
unit converter, and appends the human-readable mismatch note. -/
theorem claim_C1_amended (sh : List (PyStr × Entry)) (name : String) (servings : ℚ)
    (raw : PyStr) (entry : Entry)
    (hfound : alookup sh (simpleParse raw).2.2 = some entry)
    (hunit : entry.unit ≠ (simpleParse raw).2.1) :
    ∃ e2, alookup (addIngredientLine sh name servings raw) (simpleParse raw).2.2 = some e2 ∧
      e2.quantity = entry.quantity + (simpleParse raw).1 * servings ∧
      e2.unit = entry.unit ∧
      e2.notes = some (pyStrip ((entry.notes.getD []) ++
        mismatchNote entry.unit (simpleParse raw).2.1)) := by
  simp only [addIngredientLine, hfound, if_neg hunit]
  by_cases hrec : name ∈ entry.recipes <;>
    simp only [hrec, if_pos, if_neg, ite_true, ite_false, not_true, not_false_iff] <;>
    exact ⟨_, alookup_aset_self _ _ _, rfl, rfl, rfl⟩

/-- C1 witness: a stored `tbsp` entry for oil receiving a `cup` line. -/
theorem claim_C1_witness :
    (alookup [(strL "oil", (⟨1, strL "tbsp", ["A"], none⟩ : Entry))]
        (simpleParse (strL "1 cup oil")).2.2 =
      some (⟨1, strL "tbsp", ["A"], none⟩ : Entry)) ∧
    (⟨1, strL "tbsp", ["A"], none⟩ : Entry).unit ≠ (simpleParse (strL "1 cup oil")).2.1 ∧
    ∃ e2,
      alookup
          (addIngredientLine [(strL "oil", ⟨1, strL "tbsp", ["A"], none⟩)] "A" 1
            (strL "1 cup oil"))
          (simpleParse (strL "1 cup oil")).2.2 = some e2 ∧
      e2.quantity = (⟨1, strL "tbsp", ["A"], none⟩ : Entry).quantity +
        (simpleParse (strL "1 cup oil")).1 * 1 ∧
      e2.unit = (⟨1, strL "tbsp", ["A"], none⟩ : Entry).unit ∧
      e2.notes = some (pyStrip (((⟨1, strL "tbsp", ["A"], none⟩ : Entry).notes.getD []) ++
        mismatchNote (⟨1, strL "tbsp", ["A"], none⟩ : Entry).unit
          (simpleParse (strL "1 cup oil")).2.1)) :=
  ⟨by with_unfolding_all decide, by with_unfolding_all decide,
   claim_C1_amended _ "A" 1 _ _ (by with_unfolding_all decide) (by with_unfolding_all decide)⟩

/-- C1 counterexample: compiling `1 tbsp oil` then `1 cup oil` yields
quantity `2` (raw magnitudes summed), not the `17` that adding the
converted magnitude `convert(1, cup, tbsp) = 16` would give; the claim's
convertible-pair behaviour does not occur. -/
theorem claim_C1_counterexample :
    compile_shopping_list
        (.ok [⟨"A", .ok [strL "1 tbsp oil", strL "1 cup oil"]⟩]) (.ok []) =
      .ok [(strL "oil",
        ⟨2, strL "tbsp", ["A"],
          some (pyStrip (mismatchNote (strL "tbsp") (strL "cup")))⟩)] ∧
    (1 : ℚ) + convert_units 1 (strL "cup") (strL "tbsp") = 17 ∧
    (2 : ℚ) ≠ 17 := by
  refine ⟨by with_unfolding_all decide, by with_unfolding_all decide, by norm_num⟩

/-! ### C8: structural type errors -/

/-- C8 (amended): `compile_shopping_list` raises `TypeError` when
`recipe_list` is not a list or `num_servings_dict` is not a dict; but a
recipe whose `ingredients` field is not a list is silently skipped rather
than raised, and on list/dict-shaped input the function always returns a
shopping map (messy string content never raises). -/
theorem claim_C8_amended :
    (∀ sd, compile_shopping_list .notList sd =
      .error (.typeError "recipe_list must be a list")) ∧
    (∀ rl, compile_shopping_list (.ok rl) .notDict =
      .error (.typeError "num_servings_dict must be a dict")) ∧
    (∀ rl sd, ∃ m, compile_shopping_list (.ok rl) (.ok sd) = .ok m) ∧
    (∀ r1 r2 (r : PyRecipe) sd, r.ingredients = .notList →
      compile_shopping_list (.ok (r1 ++ r :: r2)) sd =
        compile_shopping_list (.ok (r1 ++ r2)) sd) := by
  refine ⟨fun sd => rfl, fun rl => rfl, fun rl sd => ⟨_, rfl⟩, fun r1 r2 r sd hr => ?_⟩
  cases sd with
  | notDict => rfl
  | ok d =>
    simp only [compile_shopping_list]
    have : (r1 ++ r :: r2).foldl (processRecipe d) [] = (r1 ++ r2).foldl (processRecipe d) [] := by
      rw [List.foldl_append, List.foldl_append, List.foldl_cons]
      have hskip : ∀ sh, processRecipe d sh r = sh := by
        intro sh
        unfold processRecipe
        rw [hr]
      rw [hskip]
    rw [this]

/-- C8 witness: concrete instances of all four conjuncts. -/
theorem claim_C8_witness :
    ((⟨"X", .notList⟩ : PyRecipe).ingredients = .notList) ∧
    compile_shopping_list .notList (.ok []) =
      .error (.typeError "recipe_list must be a list") ∧
    compile_shopping_list (.ok []) .notDict =
      .error (.typeError "num_servings_dict must be a dict") ∧
    (∃ m, compile_shopping_list (.ok [⟨"X", .notList⟩]) (.ok []) = .ok m) ∧
    compile_shopping_list (.ok ([] ++ (⟨"X", .notList⟩ : PyRecipe) :: [])) (.ok []) =
      compile_shopping_list (.ok ([] ++ [])) (.ok []) :=
  ⟨rfl, claim_C8_amended.1 _, claim_C8_amended.2.1 _, claim_C8_amended.2.2.1 _ _,
   claim_C8_amended.2.2.2 [] [] _ _ rfl⟩

/-- C8 counterexample: a recipe whose `ingredients` field is the non-list
value is skipped (`continue`), and the call returns an empty shopping map
instead of raising the claimed `TypeError`. -/
theorem claim_C8_counterexample :
    compile_shopping_list (.ok [⟨"X", .notList⟩]) (.ok []) = .ok [] := by
  with_unfolding_all decide

/-! ### C2: the aggregator's keys -/

theorem pyCharLower_idem (n : Nat) : pyCharLower (pyCharLower n) = pyCharLower n := by
  unfold pyCharLower
  split
  · split <;> omega
  · rfl

theorem pyLower_idem (s : PyStr) : pyLower (pyLower s) = pyLower s := by
  unfold pyLower
  rw [List.map_map]
  exact List.map_congr_left fun c _ => pyCharLower_idem c

theorem simpleParse_key_lower (line : PyStr) :
    pyLower (simpleParse line).2.2 = (simpleParse line).2.2 := by
  by_cases hline : line = []
  · subst hline; decide
  · rcases hs : pySplit (pyStrip line) with _ | ⟨p0, _ | ⟨p1, _ | ⟨p2, rest3⟩⟩⟩
    · simp only [simpleParse, if_neg hline, hs]
      exact pyLower_idem _
    · simp only [simpleParse, if_neg hline, hs]
      exact pyLower_idem _
    · rcases hf : pyFloat? p0 with _ | q <;>
        simp only [simpleParse, if_neg hline, hs, hf] <;> exact pyLower_idem _
    · rcases hf : pyFloat? p0 with _ | q <;>
        simp only [simpleParse, if_neg hline, hs, hf] <;> exact pyLower_idem _

theorem addLine_keys_lower (sh : List (PyStr × Entry)) (name : String) (servings : ℚ)
    (raw : PyStr) (h0 : ∀ k ∈ sh.map Prod.fst, pyLower k = k) :
    ∀ k ∈ (addIngredientLine sh name servings raw).map Prod.fst, pyLower k = k := by
  intro k hk
  unfold addIngredientLine at hk
  rcases hl : alookup sh (simpleParse raw).2.2 with _ | entry
  · simp only [hl] at hk
    rw [List.map_append] at hk
    rcases List.mem_append.mp hk with h | h
    · exact h0 k h
    · simp only [List.map_cons, List.map_nil, List.mem_singleton] at h
      rw [h]
      exact simpleParse_key_lower raw
  · simp only [hl] at hk
    rcases mem_keys_aset _ _ _ _ hk with h | h
    · exact h0 k h
    · rw [h]
      exact simpleParse_key_lower raw

theorem foldl_addLine_keys_lower (name : String) (servings : ℚ) (lines : List PyStr)
    (sh0 : List (PyStr × Entry)) (h0 : ∀ k ∈ sh0.map Prod.fst, pyLower k = k) :
    ∀ k ∈ (lines.foldl (fun s raw => addIngredientLine s name servings raw) sh0).map
        Prod.fst, pyLower k = k := by
  induction lines generalizing sh0 with
  | nil => exact h0
  | cons l ls ih =>
    rw [List.foldl_cons]
    exact ih _ (addLine_keys_lower sh0 name servings l h0)

theorem foldl_process_keys_lower (sdict : List (String × ℚ)) (recipes : List PyRecipe)
    (sh0 : List (PyStr × Entry)) (h0 : ∀ k ∈ sh0.map Prod.fst, pyLower k = k) :
    ∀ k ∈ (recipes.foldl (processRecipe sdict) sh0).map Prod.fst, pyLower k = k := by
  induction recipes generalizing sh0 with
  | nil => exact h0
  | cons r rs ih =>
    rw [List.foldl_cons]
    refine ih _ ?_
    unfold processRecipe
    rcases r.ingredients with l | _
    · exact foldl_addLine_keys_lower _ _ _ _ h0
    · exact h0

/-- C2 (amended): every key of a map returned by `compile_shopping_list` is
the lowercased item text produced by its internal `_simple_parse` — the
name normalizer is never applied, so keys are fixed points of lowercasing
(`pyLower k = k`) but not, in general, of `normalize_ingredient_name`. -/
theorem claim_C2_amended (rl : PyListArg PyRecipe) (sd : PyDictArg String ℚ)
    (m : List (PyStr × Entry)) (h : compile_shopping_list rl sd = .ok m) :
    ∀ k ∈ m.map Prod.fst, pyLower k = k := by
  rcases rl with recipes | _
  · rcases sd with sdict | _
    · simp only [compile_shopping_list, Except.ok.injEq] at h
      subst h
      intro k hk
      rcases List.mem_map.mp hk with ⟨p, hp, rfl⟩
      rcases List.mem_map.mp hp with ⟨q, hq, rfl⟩
      show pyLower q.1 = q.1
      exact foldl_process_keys_lower sdict recipes [] (by simp) _
        (List.mem_map_of_mem Prod.fst hq)
    · simp [compile_shopping_list] at h
  · simp [compile_shopping_list] at h

/-- C2 witness: compiling `2 cups Flour` yields the lowercase key `flour`,
and the amended theorem applies to that concrete run. -/
theorem claim_C2_witness :
    compile_shopping_list (.ok [⟨"A", .ok [strL "2 cups Flour"]⟩]) (.ok []) =
      .ok [(strL "flour", ⟨2, strL "cups", ["A"], none⟩)] ∧
    ∀ k ∈ [(strL "flour", (⟨2, strL "cups", ["A"], none⟩ : Entry))].map Prod.fst,
      pyLower k = k :=
  ⟨by with_unfolding_all decide,
   claim_C2_amended (.ok [⟨"A", .ok [strL "2 cups Flour"]⟩]) (.ok [])
     [(strL "flour", ⟨2, strL "cups", ["A"], none⟩)] (by with_unfolding_all decide)⟩

/-- C2 counterexample: the line `2 cups fresh tomatoes` contributes under
key `fresh tomatoes` (descriptor kept, plural kept), which is not the
normalizer's output `tomatoe` and not a fixed point of
`normalize_ingredient_name`, refuting both halves of the claim. -/
theorem claim_C2_counterexample :
    compile_shopping_list (.ok [⟨"R", .ok [strL "2 cups fresh tomatoes"]⟩]) (.ok []) =
      .ok [(strL "fresh tomatoes", ⟨2, strL "cups", ["R"], none⟩)] ∧
    normalize_ingredient_name (strL "fresh tomatoes") = strL "tomatoe" ∧
    normalize_ingredient_name (strL "fresh tomatoes") ≠ strL "fresh tomatoes" := by
  refine ⟨by with_unfolding_all decide, by decide, by decide⟩

/-! ### Rounding bounds and C9 -/

theorem abs_roundHalfEven_sub_le (x : ℚ) : |(roundHalfEven x : ℚ) - x| ≤ 1/2 := by
  have hd : (0 : ℤ) < (x.den : ℤ) := by exact_mod_cast x.den_pos
  unfold roundHalfEven
  set d : ℤ := (x.den : ℤ) with hdd
  set q : ℤ := Int.fdiv x.num d with hqq
  set r : ℤ := x.num - q * d with hrr
  have hqe : q = x.num / d := Int.fdiv_eq_ediv _ (le_of_lt hd)
  have hre : r = x.num % d := by rw [hrr, hqe, Int.emod_def]; ring
  have hr0 : 0 ≤ r := by rw [hre]; exact Int.emod_nonneg _ (ne_of_gt hd)
  have hrd : r < d := by rw [hre]; exact Int.emod_lt_of_pos _ hd
  have hdQ : (0 : ℚ) < (d : ℚ) := by exact_mod_cast hd
  have hxq : x - (q : ℚ) = (r : ℚ) / (d : ℚ) := by
    have hnum : ((q * d + r : ℤ) : ℚ) = (x.num : ℚ) := by
      push_cast
      rw [hrr]
      push_cast
      ring
    have hx : (x : ℚ) = ((q * d + r : ℤ) : ℚ) / (d : ℚ) := by
      rw [hnum, hdd]
      exact_mod_cast (Rat.num_div_den x).symm
    rw [hx]
    push_cast
    field_simp
    ring
  have hr0Q : (0 : ℚ) ≤ (r : ℚ) := by exact_mod_cast hr0
  have hrdQ : (r : ℚ) < (d : ℚ) := by exact_mod_cast hrd
  have hfrac0 : 0 ≤ x - (q : ℚ) := by rw [hxq]; positivity
  have hfrac1 : x - (q : ℚ) < 1 := by
    rw [hxq, div_lt_one hdQ]
    exact hrdQ
  split_ifs with h1 h2 h3
  · -- 2r < d: round down
    have h1Q : (2 : ℚ) * (r : ℚ) < (d : ℚ) := by exact_mod_cast h1
    have : x - (q : ℚ) < 1/2 := by
      rw [hxq, div_lt_iff₀ hdQ]
      linarith
    rw [abs_le]
    constructor <;> linarith
  · -- d < 2r: round up
    have h2Q : (d : ℚ) < (2 : ℚ) * (r : ℚ) := by exact_mod_cast h2
    have : (1 : ℚ)/2 < x - (q : ℚ) := by
      rw [hxq, lt_div_iff₀ hdQ]
      linarith
    rw [abs_le]
    push_cast
    constructor <;> linarith
  · -- exact tie, even floor
    have h3Q : (2 : ℚ) * (r : ℚ) = (d : ℚ) := by
      have : 2 * r = d := le_antisymm (not_lt.mp h2) (not_lt.mp h1)
      exact_mod_cast this
    have : x - (q : ℚ) = 1/2 := by
      rw [hxq, div_eq_iff (ne_of_gt hdQ)]
      linarith
    rw [abs_le]
    constructor <;> linarith
  · -- exact tie, odd floor
    have h3Q : (2 : ℚ) * (r : ℚ) = (d : ℚ) := by
      have : 2 * r = d := le_antisymm (not_lt.mp h2) (not_lt.mp h1)
      exact_mod_cast this
    have : x - (q : ℚ) = 1/2 := by
      rw [hxq, div_eq_iff (ne_of_gt hdQ)]
      linarith
    rw [abs_le]
    push_cast
    constructor <;> linarith

theorem abs_pyRound_sub_le (x : ℚ) (nd : ℕ) :
    |pyRound x nd - x| ≤ 1 / (2 * (10 : ℚ) ^ nd) := by
  have hp : (0 : ℚ) < (10 : ℚ) ^ nd := by positivity
  have h := abs_roundHalfEven_sub_le (x * (10 : ℚ) ^ nd)
  unfold pyRound
  have heq : (roundHalfEven (x * (10 : ℚ) ^ nd) : ℚ) / (10 : ℚ) ^ nd - x =
      ((roundHalfEven (x * (10 : ℚ) ^ nd) : ℚ) - x * (10 : ℚ) ^ nd) / (10 : ℚ) ^ nd := by
    field_simp
    ring
  rw [heq, abs_div, abs_of_pos hp, div_le_iff₀ hp]
  calc |(roundHalfEven (x * (10 : ℚ) ^ nd) : ℚ) - x * (10 : ℚ) ^ nd| ≤ 1/2 := h
    _ = 1 / (2 * (10 : ℚ) ^ nd) * (10 : ℚ) ^ nd := by field_simp

theorem abs_round2_sub_le (x : ℚ) : |pyRound x 2 - x| ≤ 1/200 := by
  have := abs_pyRound_sub_le x 2
  norm_num at this
  linarith [this]

/-- Composed error of a rounded conversion followed by the rounded inverse
conversion with ratio `r`. -/
theorem roundtrip_bound (r q : ℚ) (hr : 0 < r) :
    |pyRound (pyRound (q * r) 2 * r⁻¹) 2 - q| ≤ 1/200 + r⁻¹ / 200 := by
  have hrne : r ≠ 0 := ne_of_gt hr
  have h1 : |pyRound (q * r) 2 - q * r| ≤ 1/200 := abs_round2_sub_le _
  have h2 : |pyRound (pyRound (q * r) 2 * r⁻¹) 2 - pyRound (q * r) 2 * r⁻¹| ≤ 1/200 :=
    abs_round2_sub_le _
  have h3 : |pyRound (q * r) 2 * r⁻¹ - q| = |pyRound (q * r) 2 - q * r| * r⁻¹ := by
    have e : pyRound (q * r) 2 * r⁻¹ - q = (pyRound (q * r) 2 - q * r) * r⁻¹ := by
      field_simp
      ring
    rw [e, abs_mul, abs_of_pos (inv_pos.mpr hr)]
  have h4 : |pyRound (q * r) 2 * r⁻¹ - q| ≤ r⁻¹ / 200 := by
    rw [h3]
    have := mul_le_mul_of_nonneg_right h1 (le_of_lt (inv_pos.mpr hr))
    calc |pyRound (q * r) 2 - q * r| * r⁻¹ ≤ 1/200 * r⁻¹ := this
      _ = r⁻¹ / 200 := by ring
  calc |pyRound (pyRound (q * r) 2 * r⁻¹) 2 - q| ≤
      |pyRound (pyRound (q * r) 2 * r⁻¹) 2 - pyRound (q * r) 2 * r⁻¹| +
        |pyRound (q * r) 2 * r⁻¹ - q| := abs_sub_le _ _ _
    _ ≤ 1/200 + r⁻¹ / 200 := add_le_add h2 h4

theorem alookup_pos_of_all (l : List (PyStr × ℚ)) (hall : ∀ p ∈ l, 0 < p.2)
    (u : PyStr) (f : ℚ) (h : alookup l u = some f) : 0 < f := by
  have hm := alookup_mem l u f h
  exact hall _ hm

theorem vol_factor_pos (u : PyStr) (f : ℚ) (h : alookup volume_to_tbsp u = some f) :
    0 < f := by
  refine alookup_pos_of_all _ ?_ u f h
  intro p hp
  fin_cases hp <;> norm_num

theorem wt_factor_pos (u : PyStr) (f : ℚ) (h : alookup weight_to_oz u = some f) :
    0 < f := by
  refine alookup_pos_of_all _ ?_ u f h
  intro p hp
  fin_cases hp <;> norm_num

theorem wt_key_not_vol (u : PyStr) (f : ℚ) (h : alookup weight_to_oz u = some f) :
    alookup volume_to_tbsp u = none := by
  have hk := alookup_mem_keys _ _ _ h
  simp only [weight_to_oz, List.map_cons, List.map_nil] at hk
  fin_cases hk <;> decide

/-- C9 (confirmed): converting within one unit family and back recovers the
quantity up to the two rounding steps — the outer rounding contributes at
most `1/200` and the inner one at most `1/200` amplified by the back
conversion's factor ratio `fb / fa`. -/
theorem claim_C9 (q : ℚ) (a b : PyStr) (fa fb : ℚ)
    (hfam : (alookup volume_to_tbsp (pyLower a) = some fa ∧
             alookup volume_to_tbsp (pyLower b) = some fb) ∨
            (alookup weight_to_oz (pyLower a) = some fa ∧
             alookup weight_to_oz (pyLower b) = some fb)) :
    |convert_units (convert_units q a b) b a - q| ≤ 1/200 + fb / (200 * fa) := by
  have hfa : 0 < fa := by
    rcases hfam with ⟨ha, _⟩ | ⟨ha, _⟩
    · exact vol_factor_pos _ _ ha
    · exact wt_factor_pos _ _ ha
  have hfb : 0 < fb := by
    rcases hfam with ⟨_, hb⟩ | ⟨_, hb⟩
    · exact vol_factor_pos _ _ hb
    · exact wt_factor_pos _ _ hb
  have hbound : 0 < 1/200 + fb / (200 * fa) := by positivity
  by_cases heq : pyLower a = pyLower b
  · have h1 : convert_units q a b = q := by
      unfold convert_units
      rw [if_pos heq]
    have h2 : convert_units q b a = q := by
      unfold convert_units
      rw [if_pos heq.symm]
    rw [h1, h2]
    simpa using le_of_lt hbound
  · have hr : 0 < fa / fb := div_pos hfa hfb
    have key : convert_units (convert_units q a b) b a =
        pyRound (pyRound (q * (fa / fb)) 2 * (fa / fb)⁻¹) 2 := by
      rcases hfam with ⟨ha, hb⟩ | ⟨ha, hb⟩
      · have h1 : convert_units q a b = pyRound (q * fa / fb) 2 := by
          unfold convert_units
          rw [if_neg heq, ha, hb]
        have h2 : convert_units (pyRound (q * fa / fb) 2) b a =
            pyRound (pyRound (q * fa / fb) 2 * fb / fa) 2 := by
          unfold convert_units
          rw [if_neg (fun hc => heq hc.symm), hb, ha]
        rw [h1, h2]
        rw [show q * fa / fb = q * (fa / fb) by ring]
        rw [show pyRound (q * (fa / fb)) 2 * fb / fa =
          pyRound (q * (fa / fb)) 2 * (fa / fb)⁻¹ by rw [inv_div]; ring]
      · have hva := wt_key_not_vol _ _ ha
        have hvb := wt_key_not_vol _ _ hb
        have h1 : convert_units q a b = pyRound (q * fa / fb) 2 := by
          unfold convert_units
          rw [if_neg heq, hva, hvb, ha, hb]
        have h2 : convert_units (pyRound (q * fa / fb) 2) b a =
            pyRound (pyRound (q * fa / fb) 2 * fb / fa) 2 := by
          unfold convert_units
          rw [if_neg (fun hc => heq hc.symm), hvb, hva, hb, ha]
        rw [h1, h2]
        rw [show q * fa / fb = q * (fa / fb) by ring]
        rw [show pyRound (q * (fa / fb)) 2 * fb / fa =
          pyRound (q * (fa / fb)) 2 * (fa / fb)⁻¹ by rw [inv_div]; ring]
    rw [key]
    have hb := roundtrip_bound (fa / fb) q hr
    have he : (fa / fb)⁻¹ / 200 = fb / (200 * fa) := by
      rw [inv_div]
      ring
    rw [he] at hb
    exact hb

/-- C9 witness: the `cup`/`tbsp` round trip at quantity 2. -/
theorem claim_C9_witness :
    (alookup volume_to_tbsp (pyLower (strL "cup")) = some 16 ∧
     alookup volume_to_tbsp (pyLower (strL "tbsp")) = some 1) ∧
    |convert_units (convert_units 2 (strL "cup") (strL "tbsp")) (strL "tbsp") (strL "cup") -
      2| ≤ 1/200 + 1 / (200 * 16) :=
  ⟨⟨by with_unfolding_all decide, by with_unfolding_all decide⟩,
   claim_C9 2 (strL "cup") (strL "tbsp") 16 1
     (Or.inl ⟨by with_unfolding_all decide, by with_unfolding_all decide⟩)⟩

/-! ### The pricing fold: closed form, C10 and C4 -/

theorem calcStep_of_some (inv : List (PyStr × StoreItem))
    (acc : ℚ × List (PyStr × ItemizedRow) × List PyStr) (p : PyStr × Entry)
    (pi : StoreItem) (h : lookup3 inv p.1 = some pi) :
    calcStep inv acc p = addRow acc p.1 p.2 pi := by
  rcases ha : alookup inv p.1 with _ | v
  · have hp : pluralLookup inv p.1 = some pi := by
      unfold lookup3 at h
      rw [ha] at h
      exact h
    simp only [calcStep, ha, hp]
  · have hv : (some v : Option StoreItem) = some pi := by
      unfold lookup3 at h
      rw [ha] at h
      exact h
    simp only [calcStep, ha]
    injection hv with hv
    rw [hv]

theorem calcStep_of_none (inv : List (PyStr × StoreItem))
    (acc : ℚ × List (PyStr × ItemizedRow) × List PyStr) (p : PyStr × Entry)
    (h : lookup3 inv p.1 = none) :
    calcStep inv acc p = (acc.1, acc.2.1, acc.2.2 ++ [p.1]) := by
  rcases ha : alookup inv p.1 with _ | v
  · have hp : pluralLookup inv p.1 = none := by
      unfold lookup3 at h
      rw [ha] at h
      exact h
    simp only [calcStep, ha, hp]
  · exfalso
    unfold lookup3 at h
    rw [ha] at h
    exact Option.noConfusion h

theorem calc_foldl_closed (inv : List (PyStr × StoreItem)) (sh : List (PyStr × Entry)) :
    ∀ (t0 : ℚ) (iz0 : List (PyStr × ItemizedRow)) (nf0 : List PyStr),
      (iz0.map Prod.fst ++ sh.map Prod.fst).Nodup →
      sh.foldl (calcStep inv) (t0, iz0, nf0) =
        (t0 + calcSum inv sh, iz0 ++ calcRows inv sh, nf0 ++ calcMisses inv sh) := by
  induction sh with
  | nil =>
    intro t0 iz0 nf0 _
    simp [calcSum, calcRows, calcMisses]
  | cons p sh ih =>
    intro t0 iz0 nf0 hnd
    have hfresh : p.1 ∉ iz0.map Prod.fst := by
      rcases List.nodup_append.mp hnd with ⟨_, _, hdisj⟩
      intro hc
      exact hdisj hc (by simp)
    rw [List.foldl_cons]
    rcases hl : lookup3 inv p.1 with _ | pi
    · rw [calcStep_of_none inv _ p hl]
      have hnd' : (iz0.map Prod.fst ++ sh.map Prod.fst).Nodup := by
        refine List.Nodup.sublist ?_ hnd
        exact List.Sublist.append_left (List.sublist_cons_self _ _) _
      rw [ih t0 iz0 (nf0 ++ [p.1]) hnd']
      simp only [calcSum, calcRows, calcMisses]
      simp [hl, List.append_assoc]
    · rw [calcStep_of_some inv _ p pi hl]
      have hstep : addRow (t0, iz0, nf0) p.1 p.2 pi =
          (t0 + p.2.quantity * pi.price.getD 0, iz0 ++ [(p.1, rowOf p pi)], nf0) := by
        simp only [addRow, rowOf]
        rw [aset_of_not_mem _ _ _ hfresh]
      rw [hstep]
      have hnd' : ((iz0 ++ [(p.1, rowOf p pi)]).map Prod.fst ++ sh.map Prod.fst).Nodup := by
        rw [List.map_append, List.append_assoc]
        simpa using hnd
      rw [ih (t0 + p.2.quantity * pi.price.getD 0) (iz0 ++ [(p.1, rowOf p pi)]) nf0 hnd']
      simp only [calcSum, calcRows, calcMisses]
      simp only [List.map_cons, List.sum_cons, List.filterMap_cons, List.filter_cons, hl,
        Option.map_some, Option.isNone_some, Prod.mk.injEq, List.append_assoc,
        List.singleton_append]
      refine ⟨by ring, by simp [rowOf], by simp⟩

theorem mem_keys_calcRows (inv : List (PyStr × StoreItem)) (sh : List (PyStr × Entry))
    (k : PyStr) :
    k ∈ (calcRows inv sh).map Prod.fst ↔
      ∃ p ∈ sh, p.1 = k ∧ (lookup3 inv k).isSome := by
  constructor
  · intro h
    rcases List.mem_map.mp h with ⟨q, hq, rfl⟩
    rcases List.mem_filterMap.mp hq with ⟨p, hp, hfp⟩
    rcases Option.map_eq_some'.mp hfp with ⟨pi, hpi, hq2⟩
    refine ⟨p, hp, ?_, ?_⟩
    · rw [← hq2]
    · rw [← hq2]
      simp [hpi]
  · rintro ⟨p, hp, rfl, hsome⟩
    rcases ho : lookup3 inv p.1 with _ | pi
    · rw [ho] at hsome
      simp at hsome
    · refine List.mem_map.mpr ⟨(p.1, rowOf p pi), ?_, rfl⟩
      exact List.mem_filterMap.mpr ⟨p, hp, by rw [ho]; rfl⟩

theorem mem_calcMisses (inv : List (PyStr × StoreItem)) (sh : List (PyStr × Entry))
    (k : PyStr) :
    k ∈ calcMisses inv sh ↔ ∃ p ∈ sh, p.1 = k ∧ (lookup3 inv k).isNone := by
  unfold calcMisses
  constructor
  · intro h
    rcases List.mem_map.mp h with ⟨q, hq, rfl⟩
    rcases List.mem_filter.mp hq with ⟨hmem, hnone⟩
    exact ⟨q, hmem, rfl, by simpa using hnone⟩
  · rintro ⟨p, hp, rfl, hnone⟩
    exact List.mem_map.mpr ⟨p, List.mem_filter.mpr ⟨hp, by simpa using hnone⟩, rfl⟩

theorem calcRows_misses_length (inv : List (PyStr × StoreItem)) (sh : List (PyStr × Entry)) :
    (calcRows inv sh).length + (calcMisses inv sh).length = sh.length := by
  induction sh with
  | nil => simp [calcRows, calcMisses]
  | cons p sh ih =>
    rcases hl : lookup3 inv p.1 with _ | pi <;>
      simp only [calcRows, calcMisses] at ih ⊢ <;>
      simp [hl, List.filterMap_cons, List.filter_cons, List.length_map] at ih ⊢ <;>
      omega

/-- C10 (confirmed): `calculate_shopping_list_total` partitions the shopping
list's items — every input item name lands in exactly one of `itemized` and
`not_found`, and the two sizes sum to the input size. -/
theorem claim_C10 (shopping : List (PyStr × Entry)) (inv : List (PyStr × StoreItem))
    (hnd : (shopping.map Prod.fst).Nodup) :
    (∀ k, k ∈ shopping.map Prod.fst ↔
      (k ∈ (calculate_shopping_list_total shopping inv).itemized.map Prod.fst ∨
       k ∈ (calculate_shopping_list_total shopping inv).not_found)) ∧
    (∀ k, ¬(k ∈ (calculate_shopping_list_total shopping inv).itemized.map Prod.fst ∧
       k ∈ (calculate_shopping_list_total shopping inv).not_found)) ∧
    (calculate_shopping_list_total shopping inv).itemized.length +
      (calculate_shopping_list_total shopping inv).not_found.length = shopping.length := by
  have hc : calculate_shopping_list_total shopping inv =
      ⟨pyRound (0 + calcSum inv shopping) 2, calcRows inv shopping, calcMisses inv shopping⟩ := by
    unfold calculate_shopping_list_total
    rw [calc_foldl_closed inv shopping 0 [] [] (by simpa using hnd)]
    rfl
  rw [hc]
  refine ⟨?_, ?_, calcRows_misses_length inv shopping⟩
  · intro k
    constructor
    · intro hk
      rcases List.mem_map.mp hk with ⟨p, hp, rfl⟩
      rcases ho : lookup3 inv p.1 with _ | pi
      · exact Or.inr ((mem_calcMisses inv shopping p.1).mpr ⟨p, hp, rfl, by simp [ho]⟩)
      · exact Or.inl ((mem_keys_calcRows inv shopping p.1).mpr ⟨p, hp, rfl, by simp [ho]⟩)
    · intro hk
      rcases hk with hk | hk
      · rcases (mem_keys_calcRows inv shopping k).mp hk with ⟨p, hp, rfl, _⟩
        exact List.mem_map_of_mem Prod.fst hp
      · rcases (mem_calcMisses inv shopping k).mp hk with ⟨p, hp, rfl, _⟩
        exact List.mem_map_of_mem Prod.fst hp
  · intro k ⟨h1, h2⟩
    rcases (mem_keys_calcRows inv shopping k).mp h1 with ⟨_, _, _, hsome⟩
    rcases (mem_calcMisses inv shopping k).mp h2 with ⟨_, _, _, hnone⟩
    rcases ho : lookup3 inv k with _ | pi
    · rw [ho] at hsome
      simp at hsome
    · rw [ho] at hnone
      simp at hnone

/-- C10 witness: a two-item list against a one-item inventory. -/
theorem claim_C10_witness :
    (([(strL "milk", (⟨1, strL "each", [], none⟩ : Entry)),
       (strL "tofu", (⟨2, strL "each", [], none⟩ : Entry))].map Prod.fst).Nodup) ∧
    (calculate_shopping_list_total
        [(strL "milk", ⟨1, strL "each", [], none⟩), (strL "tofu", ⟨2, strL "each", [], none⟩)]
        [(strL "milk", ⟨some 3⟩)]).itemized.length +
      (calculate_shopping_list_total
        [(strL "milk", ⟨1, strL "each", [], none⟩), (strL "tofu", ⟨2, strL "each", [], none⟩)]
        [(strL "milk", ⟨some 3⟩)]).not_found.length = 2 :=
  ⟨by decide,
   (claim_C10
     [(strL "milk", ⟨1, strL "each", [], none⟩), (strL "tofu", ⟨2, strL "each", [], none⟩)]
     [(strL "milk", ⟨some 3⟩)] (by decide)).2.2⟩

/-- C4 (code bug): evaluated at the claim's own example, the pricer misses in
both directions — `tomatoes` against inventory key `tomato` tries
`tomatoes`, `tomatoess`, `tomatoe` and lands in `not_found`, and `tomato`
against `tomatoes` tries `tomato`, `tomatos`; a regular plural pair such as
`carrots`/`carrot` does hit, and `find_item_price` misses the pair too. -/
theorem claim_C4_code_eval :
    calculate_shopping_list_total [(strL "tomatoes", ⟨2, strL "count", [], none⟩)]
        [(strL "tomato", ⟨some 1⟩)] = ⟨0, [], [strL "tomatoes"]⟩ ∧
    calculate_shopping_list_total [(strL "tomato", ⟨2, strL "count", [], none⟩)]
        [(strL "tomatoes", ⟨some 1⟩)] = ⟨0, [], [strL "tomato"]⟩ ∧
    calculate_shopping_list_total [(strL "carrots", ⟨2, strL "count", [], none⟩)]
        [(strL "carrot", ⟨some 1⟩)] =
      ⟨2, [(strL "carrots", ⟨2, strL "count", 1, 2⟩)], []⟩ ∧
    find_item_price (strL "tomatoes") [(strL "tomato", ⟨some 1⟩)] = none ∧
    find_item_price (strL "tomato") [(strL "tomatoes", ⟨some 1⟩)] = none := by
  refine ⟨by with_unfolding_all decide, by with_unfolding_all decide,
    by with_unfolding_all decide, by decide, by decide⟩

/-! ### C5: the store comparison -/

theorem foldl_aset_map {β : Type _} (f : String → β) (l : List String) :
    ∀ acc : List (String × β), l.Nodup → (∀ s ∈ l, s ∉ acc.map Prod.fst) →
      l.foldl (fun c s => aset c s (f s)) acc = acc ++ l.map fun s => (s, f s) := by
  induction l with
  | nil =>
    intro acc _ _
    simp
  | cons s l ih =>
    intro acc hnd hfresh
    rw [List.foldl_cons, aset_of_not_mem _ _ _ (hfresh s (by simp))]
    rw [ih (acc ++ [(s, f s)]) (List.Nodup.of_cons hnd) ?_]
    · simp
    · intro s2 hs2
      rw [List.map_append]
      intro hc
      rcases List.mem_append.mp hc with hc | hc
      · exact hfresh s2 (List.mem_cons_of_mem _ hs2) hc
      · simp only [List.map_cons, List.map_nil, List.mem_singleton] at hc
        rw [hc] at hs2
        exact (List.nodup_cons.mp hnd).1 hs2

theorem compare_eq_sorted_map (shopping : List (PyStr × Entry)) (store_list : List String)
    (load : String → LoadResult) (hnd : store_list.Nodup) :
    compare_store_totals shopping store_list load =
      List.insertionSort byTotal
        (store_list.map fun s => (s, storeSummary shopping load s)) := by
  unfold compare_store_totals
  rw [foldl_aset_map _ _ [] hnd (by simp)]
  rfl

/-- C5 (confirmed): `compare_store_totals` keeps an entry for every
requested store; a store whose inventory load fails (missing file or
per-store exception) is recorded with the `float('inf')` total, zero found
items and `len(shopping_list)` missing items instead of being dropped; the
result is ordered ascending by total; and consequently once a failed store
appears, everything after it is failed too — every failed store sorts
after every successfully priced store. -/
theorem claim_C5 (shopping : List (PyStr × Entry)) (store_list : List String)
    (load : String → LoadResult) (hnd : store_list.Nodup) :
    (∀ s ∈ store_list,
      (s, storeSummary shopping load s) ∈ compare_store_totals shopping store_list load) ∧
    (∀ s ∈ store_list, load s = .err →
      (s, (⟨.inf, 0, shopping.length⟩ : StoreSummary)) ∈
        compare_store_totals shopping store_list load) ∧
    (∀ p ∈ compare_store_totals shopping store_list load,
      p.1 ∈ store_list ∧ p.2 = storeSummary shopping load p.1) ∧
    List.Sorted byTotal (compare_store_totals shopping store_list load) ∧
    (compare_store_totals shopping store_list load).Pairwise
      (fun a b => a.2.total = .inf → b.2.total = .inf) := by
  rw [compare_eq_sorted_map shopping store_list load hnd]
  have hperm := List.perm_insertionSort byTotal
    (store_list.map fun s => (s, storeSummary shopping load s))
  refine ⟨?_, ?_, ?_, ?_, ?_⟩
  · intro s hs
    exact hperm.mem_iff.mpr (List.mem_map_of_mem _ hs)
  · intro s hs herr
    have : storeSummary shopping load s = ⟨.inf, 0, shopping.length⟩ := by
      unfold storeSummary
      rw [herr]
    rw [← this]
    exact hperm.mem_iff.mpr (List.mem_map_of_mem _ hs)
  · intro p hp
    rcases List.mem_map.mp (hperm.mem_iff.mp hp) with ⟨s, hs, rfl⟩
    exact ⟨hs, rfl⟩
  · exact List.sorted_insertionSort byTotal _
  · have hs := List.sorted_insertionSort byTotal
      (store_list.map fun s => (s, storeSummary shopping load s))
    refine List.Pairwise.imp ?_ hs
    intro a b hab hainf
    unfold byTotal at hab
    rw [hainf] at hab
    rcases hb : b.2.total with q | _
    · rw [hb] at hab
      exact hab.elim
    · rfl

/-- C5 witness: two stores, the second of which fails to load. -/
theorem claim_C5_witness :
    (["giant", "acme"].Nodup) ∧
    (∀ s ∈ ["giant", "acme"], loadW s = .err →
      (s, (⟨.inf, 0, ([] : List (PyStr × Entry)).length⟩ : StoreSummary)) ∈
        compare_store_totals [] ["giant", "acme"] loadW) ∧
    List.Sorted byTotal (compare_store_totals [] ["giant", "acme"] loadW) :=
  ⟨by decide,
   (claim_C5 [] ["giant", "acme"] loadW (by decide)).2.1,
   (claim_C5 [] ["giant", "acme"] loadW (by decide)).2.2.2.1⟩

/-! ### C7: the categorizer -/

theorem findCat_eq (l : List (PyStr × List PyStr)) (il : PyStr) :
    findCat l il = (l.find? fun cp => cp.2.any fun kw => containsSub il kw).map Prod.fst := by
  induction l with
  | nil => rfl
  | cons cp rest ih =>
    rcases cp with ⟨cat, kws⟩
    cases hcase : (kws.any fun kw => containsSub il kw) <;>
      simp [findCat, List.find?, hcase, ih]

theorem specCategory_eq_findCat (item : PyStr) :
    specCategory item = (findCat CATEGORY_MAP (pyLower item)).getD (strL "Other") := by
  unfold specCategory
  rw [findCat_eq]

theorem initBuckets_keys : initBuckets.map Prod.fst =
    CATEGORY_MAP.map Prod.fst ++ [strL "Other"] := by
  unfold initBuckets
  rw [List.map_append, List.map_map]
  rfl

theorem specCategory_mem_buckets (item : PyStr) :
    specCategory item ∈ initBuckets.map Prod.fst := by
  rw [initBuckets_keys]
  unfold specCategory
  rcases hf : CATEGORY_MAP.find? fun cp => cp.2.any fun kw => containsSub (pyLower item) kw
    with _ | cp
  · rw [hf]
    exact List.mem_append.mpr (Or.inr (by simp))
  · rw [hf]
    have hm := List.mem_of_find?_eq_some hf
    have hred : ((some cp).map Prod.fst).getD (strL "Other") = cp.1 := rfl
    rw [hred]
    exact List.mem_append.mpr (Or.inl (List.mem_map_of_mem Prod.fst hm))

theorem updateAt_eq_map {α β : Type _} [DecidableEq α] (l : List (α × β)) (k : α) (f : β → β)
    (hnd : (l.map Prod.fst).Nodup) :
    updateAt l k f = l.map fun b => if b.1 = k then (b.1, f b.2) else b := by
  induction l with
  | nil => rfl
  | cons hd tl ih =>
    have hnd1 := hnd
    rw [List.map_cons] at hnd1
    rcases List.nodup_cons.mp hnd1 with ⟨hhd, htl⟩
    by_cases h : k = hd.1
    · have hmap : tl.map (fun b => if b.1 = k then (b.1, f b.2) else b) = tl := by
        refine (List.map_congr_left ?_).trans (List.map_id tl)
        intro b hb
        have hbne : b.1 ≠ k := by
          intro hc
          rw [h] at hc
          exact hhd (hc ▸ List.mem_map_of_mem Prod.fst hb)
        simp [hbne]
      rw [h] at hmap
      simp [updateAt, h, hmap]
    · simp only [updateAt, if_neg h, List.map_cons]
      have hne : hd.1 ≠ k := fun hc => h hc.symm
      rw [if_neg hne, ih htl]

theorem group_foldl_closed (shopping : List (PyStr × Entry))
    (hnd : (shopping.map Prod.fst).Nodup) :
    shopping.foldl
      (fun cs p =>
        updateAt cs ((findCat CATEGORY_MAP (pyLower p.1)).getD (strL "Other"))
          (fun d => aset d p.1 p.2))
      initBuckets =
      initBuckets.map fun b =>
        (b.1, shopping.filter fun p => specCategory p.1 = b.1) := by
  induction shopping using List.reverseRecOn with
  | nil =>
    simp only [List.foldl_nil, List.filter_nil]
    decide
  | append_singleton sh p ih =>
    have hnd0 : (sh.map Prod.fst).Nodup := by
      rw [List.map_append] at hnd
      exact List.Nodup.sublist (List.sublist_append_left _ _) hnd
    have hfresh : p.1 ∉ sh.map Prod.fst := by
      rw [List.map_append] at hnd
      rcases List.nodup_append.mp hnd with ⟨_, _, hdisj⟩
      intro hc
      exact hdisj hc (by simp)
    rw [List.foldl_append, List.foldl_cons, List.foldl_nil, ih hnd0]
    rw [← specCategory_eq_findCat]
    have hkeys : ((initBuckets.map fun b =>
        (b.1, sh.filter fun p => specCategory p.1 = b.1)).map Prod.fst).Nodup := by
      rw [List.map_map]
      have : (Prod.fst ∘ fun b : PyStr × List (PyStr × Entry) =>
          (b.1, sh.filter fun p => specCategory p.1 = b.1)) = Prod.fst := rfl
      rw [this]
      decide
    rw [updateAt_eq_map _ _ _ hkeys, List.map_map]
    refine List.map_congr_left ?_
    intro b _
    simp only [Function.comp_apply]
    by_cases hb : b.1 = specCategory p.1
    · rw [if_pos hb]
      have hfilter : (sh ++ [p]).filter (fun q => specCategory q.1 = b.1) =
          (sh.filter fun q => specCategory q.1 = b.1) ++ [p] := by
        rw [List.filter_append]
        congr 1
        simp [hb.symm]
      rw [hfilter, aset_of_not_mem]
      intro hc
      rcases List.mem_map.mp hc with ⟨q, hq, hq1⟩
      exact hfresh (hq1 ▸ List.mem_map_of_mem Prod.fst (List.mem_of_mem_filter hq))
    · rw [if_neg hb]
      have hfilter : (sh ++ [p]).filter (fun q => specCategory q.1 = b.1) =
          sh.filter fun q => specCategory q.1 = b.1 := by
        rw [List.filter_append]
        have : [p].filter (fun q => specCategory q.1 = b.1) = [] := by
          simp only [List.filter_cons, List.filter_nil]
          rw [if_neg]
          simp only [decide_eq_true_eq]
          exact fun hc => hb hc.symm
        rw [this, List.append_nil]
      rw [hfilter]

/-- C7 (confirmed): `group_items_by_category` puts every item into the
bucket of the first category, in keyword-table order, one of whose keywords
occurs as a substring of the item's lowercase name (`specCategory`); items
matching no keyword land in `Other`; buckets that end up empty are omitted;
and every pair stored in a bucket comes from the input and belongs there. -/
theorem claim_C7 (shopping : List (PyStr × Entry))
    (hnd : (shopping.map Prod.fst).Nodup) :
    (∀ b ∈ group_items_by_category shopping, b.2 ≠ []) ∧
    (∀ p ∈ shopping, ∃ d, (specCategory p.1, d) ∈ group_items_by_category shopping ∧
      p ∈ d) ∧
    (∀ b ∈ group_items_by_category shopping, ∀ p ∈ b.2,
      p ∈ shopping ∧ specCategory p.1 = b.1) := by
  have hg : group_items_by_category shopping =
      (initBuckets.map fun b => (b.1, shopping.filter fun p => specCategory p.1 = b.1)).filter
        (fun b => !b.2.isEmpty) := by
    unfold group_items_by_category
    rw [group_foldl_closed shopping hnd]
  rw [hg]
  refine ⟨?_, ?_, ?_⟩
  · intro b hb
    have := (List.mem_filter.mp hb).2
    simpa using this
  · intro p hp
    refine ⟨shopping.filter fun q => specCategory q.1 = specCategory p.1, ?_, ?_⟩
    · refine List.mem_filter.mpr ⟨?_, ?_⟩
      · rcases List.mem_map.mp (specCategory_mem_buckets p.1) with ⟨b, hb, hb1⟩
        have : (specCategory p.1, shopping.filter fun q => specCategory q.1 = specCategory p.1)
            = (b.1, shopping.filter fun q => specCategory q.1 = b.1) := by
          rw [hb1]
        rw [this]
        exact List.mem_map_of_mem _ hb
      · have hmem : p ∈ shopping.filter fun q => specCategory q.1 = specCategory p.1 :=
          List.mem_filter.mpr ⟨hp, by simp⟩
        simpa using List.ne_nil_of_mem hmem
    · exact List.mem_filter.mpr ⟨hp, by simp⟩
  · intro b hb p hp
    rcases List.mem_map.mp (List.mem_filter.mp hb).1 with ⟨b0, _, rfl⟩
    have := List.mem_filter.mp hp
    refine ⟨this.1, ?_⟩
    simpa using this.2

/-- C7 witness: `cherry tomato` substring-matches the Produce keyword
`tomato` even though it is not itself a keyword, `chocolate milk` lands in
Dairy, and an unmatched item lands in Other. -/
theorem claim_C7_witness :
    (([(strL "cherry tomato", (⟨1, strL "each", [], none⟩ : Entry)),
       (strL "dragonfruit", (⟨1, strL "each", [], none⟩ : Entry))].map Prod.fst).Nodup) ∧
    specCategory (strL "cherry tomato") = strL "Produce" ∧
    specCategory (strL "dragonfruit") = strL "Other" ∧
    (∀ p ∈ [(strL "cherry tomato", (⟨1, strL "each", [], none⟩ : Entry)),
       (strL "dragonfruit", (⟨1, strL "each", [], none⟩ : Entry))],
      ∃ d, (specCategory p.1, d) ∈ group_items_by_category
        [(strL "cherry tomato", ⟨1, strL "each", [], none⟩),
         (strL "dragonfruit", ⟨1, strL "each", [], none⟩)] ∧ p ∈ d) :=
  ⟨by decide, by decide, by decide,
   (claim_C7
     [(strL "cherry tomato", ⟨1, strL "each", [], none⟩),
      (strL "dragonfruit", ⟨1, strL "each", [], none⟩)] (by decide)).2.1⟩

/-! ### C6: empty and whitespace-only ingredient lines -/

theorem pyCharLower_of_ws (c : Nat) (h : isWs c = true) : pyCharLower c = c := by
  unfold isWs at h
  unfold pyCharLower
  rw [if_neg]
  simp only [Bool.or_eq_true, decide_eq_true_eq] at h
  omega

theorem pyLower_allWs (s : PyStr) (h : ∀ c ∈ s, isWs c = true) :
    ∀ c ∈ pyLower s, isWs c = true := by
  intro c hc
  rcases List.mem_map.mp hc with ⟨d, hd, rfl⟩
  rw [pyCharLower_of_ws d (h d hd)]
  exact h d hd

theorem stripLeft_allWs (s : PyStr) (h : ∀ c ∈ s, isWs c = true) : stripLeft s = [] := by
  induction s with
  | nil => rfl
  | cons c t ih =>
    unfold stripLeft
    rw [List.dropWhile_cons, if_pos (h c (by simp))]
    exact ih fun d hd => h d (List.mem_cons_of_mem _ hd)

theorem pyStrip_allWs (s : PyStr) (h : ∀ c ∈ s, isWs c = true) : pyStrip s = [] := by
  unfold pyStrip
  rw [stripLeft_allWs s h]
  rfl

theorem startsWith_subset (pat s : PyStr) (h : startsWith s pat = true) :
    ∀ c ∈ pat, c ∈ s := by
  induction pat generalizing s with
  | nil => simp
  | cons p ps ih =>
    rcases s with _ | ⟨c, cs⟩
    · exact absurd h (by simp [startsWith])
    · simp only [startsWith, Bool.and_eq_true, beq_iff_eq] at h
      intro d hd
      rcases List.mem_cons.mp hd with hd | hd
      · rw [hd, ← h.1]
        exact List.mem_cons_self _ _
      · exact List.mem_cons_of_mem _ (ih cs h.2 d hd)

theorem containsSub_subset (s pat : PyStr) (h : containsSub s pat = true) :
    ∀ c ∈ pat, c ∈ s := by
  induction s with
  | nil =>
    unfold containsSub at h
    exact startsWith_subset pat [] h
  | cons c cs ih =>
    unfold containsSub at h
    rcases Bool.or_eq_true _ _ |>.mp h with h | h
    · exact startsWith_subset _ _ h
    · exact fun d hd => List.mem_cons_of_mem _ (ih h d hd)

theorem containsSub_allWs_eq_false (s pat : PyStr) (hs : ∀ c ∈ s, isWs c = true)
    (hpat : ∃ c ∈ pat, isWs c = false) : containsSub s pat = false := by
  rcases hpat with ⟨c, hc, hcw⟩
  cases hcon : containsSub s pat with
  | false => rfl
  | true =>
    have := hs c (containsSub_subset s pat hcon c hc)
    rw [this] at hcw
    exact absurd hcw (by simp)

theorem prepScan_of_no_match (item : PyStr) :
    ∀ words : List PyStr, (∀ w ∈ words, containsSub (pyLower item) w = false) →
      prepScan words item = (item, none) := by
  intro words
  induction words with
  | nil => intro _; rfl
  | cons w ws ih =>
    intro h
    unfold prepScan
    rw [if_neg (by rw [h w (by simp)]; simp)]
    exact ih fun w2 hw2 => h w2 (List.mem_cons_of_mem _ hw2)

/-- C6 (amended): an empty line parses to the zero/each/empty record as
claimed, but a whitespace-only (non-empty) line is truthy in Python, skips
the early return, and parses to quantity `1.0` — with unit `each`, item
`""` and no preparation — rather than quantity `0`; neither case raises. -/
theorem claim_C6_amended :
    parse_ingredient_line [] = ⟨0, strL "each", [], none⟩ ∧
    ∀ s, s ≠ [] → (∀ c ∈ s, isWs c = true) →
      parse_ingredient_line s = ⟨1, strL "each", [], none⟩ := by
  refine ⟨by with_unfolding_all decide, fun s hne hws => ?_⟩
  have hsplit : pySplit (pyStrip s) = [] := by
    rw [pyStrip_allWs s hws]
    rfl
  have hprep : prepScan prepWords s = (s, none) := by
    refine prepScan_of_no_match s prepWords ?_
    intro w hw
    refine containsSub_allWs_eq_false _ _ (pyLower_allWs s hws) ?_
    fin_cases hw
    · exact ⟨100, by decide, by decide⟩
    · exact ⟨99, by decide, by decide⟩
    · exact ⟨109, by decide, by decide⟩
    · exact ⟨115, by decide, by decide⟩
  have hitem : pyStrip (pyLower s) = [] := pyStrip_allWs _ (pyLower_allWs s hws)
  simp only [parse_ingredient_line, if_neg hne, hsplit, hprep, hitem]

/-- C6 witness: the single-space line. -/
theorem claim_C6_witness :
    ((strL " " : PyStr) ≠ []) ∧ (∀ c ∈ strL " ", isWs c = true) ∧
    parse_ingredient_line (strL " ") = ⟨1, strL "each", [], none⟩ :=
  ⟨by decide, by decide,
   claim_C6_amended.2 (strL " ") (by decide) (by decide)⟩

/-- C6 counterexample: the whitespace-only line returns quantity `1.0`, not
the claimed `0`. -/
theorem claim_C6_counterexample :
    (parse_ingredient_line (strL " ")).quantity = 1 ∧ (1 : ℚ) ≠ 0 := by
  refine ⟨by with_unfolding_all decide, by norm_num⟩

/-! ### C3: split/join/strip machinery for the normalizer -/

theorem foldr_splitC_word (w : PyStr) (hw : ∀ c ∈ w, isWs c = false) :
    ∀ acc, List.foldr splitC ([] :: acc) w = w :: acc := by
  induction w with
  | nil => intro acc; rfl
  | cons c t ih =>
    intro acc
    rw [List.foldr_cons, ih fun d hd => hw d (List.mem_cons_of_mem _ hd)]
    unfold splitC
    rw [if_neg (by rw [hw c (by simp)]; simp)]

theorem foldr_splitC_word_nil (w : PyStr) (hw : ∀ c ∈ w, isWs c = false) (hne : w ≠ []) :
    List.foldr splitC [] w = [w] := by
  induction w with
  | nil => exact absurd rfl hne
  | cons c t ih =>
    rcases ht : t with _ | ⟨d, t2⟩
    · simp only [List.foldr_cons, List.foldr_nil]
      unfold splitC
      rw [if_neg (by rw [hw c (by simp)]; simp)]
    · rw [List.foldr_cons, ← ht,
        ih (fun d2 hd2 => hw d2 (List.mem_cons_of_mem _ hd2)) (by rw [ht]; simp)]
      unfold splitC
      rw [if_neg (by rw [hw c (by simp)]; simp)]

theorem foldr_splitC_words_nonws (s : PyStr) :
    ∀ acc, (∀ w ∈ acc, ∀ c ∈ w, isWs c = false) →
      ∀ w ∈ List.foldr splitC acc s, ∀ c ∈ w, isWs c = false := by
  induction s with
  | nil => exact fun acc h => h
  | cons c t ih =>
    intro acc hacc
    rw [List.foldr_cons]
    have hrec := ih acc hacc
    cases hcw : isWs c with
    | true =>
      have hstep : splitC c (List.foldr splitC acc t) = [] :: List.foldr splitC acc t := by
        unfold splitC
        rw [if_pos hcw]
      rw [hstep]
      intro w hw
      rcases List.mem_cons.mp hw with hw | hw
      · rw [hw]; simp
      · exact hrec w hw
    | false =>
      rcases hfold : List.foldr splitC acc t with _ | ⟨w0, ws0⟩
      · have hstep : splitC c ([] : List PyStr) = [[c]] := by
          unfold splitC
          rw [if_neg (by rw [hcw]; simp)]
        rw [hstep]
        intro w hw d hd
        rcases List.mem_singleton.mp hw with rfl
        rcases List.mem_singleton.mp hd with rfl
        exact hcw
      · have hstep : splitC c (w0 :: ws0) = (c :: w0) :: ws0 := by
          unfold splitC
          rw [if_neg (by rw [hcw]; simp)]
        rw [hstep]
        rw [hfold] at hrec
        intro w hw
        rcases List.mem_cons.mp hw with hw | hw
        · subst hw
          intro d hd
          rcases List.mem_cons.mp hd with hd | hd
          · subst hd; exact hcw
          · exact hrec w0 (by simp) d hd
        · exact hrec w (List.mem_cons_of_mem _ hw)

theorem pySplit_words (s : PyStr) :
    ∀ w ∈ pySplit s, w ≠ [] ∧ ∀ c ∈ w, isWs c = false := by
  intro w hw
  rcases List.mem_filter.mp hw with ⟨hmem, hne⟩
  refine ⟨by simpa using hne, ?_⟩
  exact foldr_splitC_words_nonws s [] (by simp) w hmem

theorem pySplit_joinSpace (ws : List PyStr)
    (hws : ∀ w ∈ ws, w ≠ [] ∧ ∀ c ∈ w, isWs c = false) :
    pySplit (pyJoinSpace ws) = ws := by
  induction ws with
  | nil => rfl
  | cons w rest ih =>
    rcases hrest : rest with _ | ⟨w2, rest2⟩
    · have hw := hws w (by simp)
      show pySplit w = [w]
      unfold pySplit
      rw [foldr_splitC_word_nil w hw.2 hw.1]
      simp [hw.1]
    · rw [← hrest]
      have hjoin : pyJoinSpace (w :: rest) = w ++ 32 :: pyJoinSpace rest := by
        rw [hrest]
        rfl
      rw [hjoin]
      have hw := hws w (by simp)
      unfold pySplit
      rw [List.foldr_append, List.foldr_cons]
      have h32 : splitC 32 (List.foldr splitC [] (pyJoinSpace rest)) =
          [] :: List.foldr splitC [] (pyJoinSpace rest) := by
        unfold splitC
        rw [if_pos (by decide)]
      rw [h32, foldr_splitC_word w hw.2, List.filter_cons_of_pos (by simpa using hw.1)]
      have := ih (by rw [hrest]; intro w2 hw2; exact hws w2 (by rw [hrest]; exact List.mem_cons_of_mem _ hw2))
      unfold pySplit at this
      rw [this]

theorem collapse_Collapsed (s : PyStr) : Collapsed (pyJoinSpace (pySplit s)) := by
  unfold Collapsed
  rw [pySplit_joinSpace (pySplit s) (pySplit_words s)]

theorem Collapsed_nil : Collapsed ([] : PyStr) := rfl

theorem Collapsed_word (w : PyStr) (hne : w ≠ []) (hw : ∀ c ∈ w, isWs c = false) :
    Collapsed w := by
  unfold Collapsed pySplit
  rw [foldr_splitC_word_nil w hw hne, List.filter_cons_of_pos (by simpa using hne)]
  rfl

theorem pySplit_cons_nonws_ne_nil (c : Nat) (t : PyStr) (hc : isWs c = false) :
    pySplit (c :: t) ≠ [] := by
  unfold pySplit
  rw [List.foldr_cons]
  rcases hfold : List.foldr splitC [] t with _ | ⟨w0, ws0⟩ <;>
    unfold splitC <;> rw [if_neg (by rw [hc]; simp)] <;> simp

theorem dropWhile_append_cases (p : Nat → Bool) (a b : PyStr) :
    List.dropWhile p (a ++ b) =
      if List.dropWhile p a = [] then List.dropWhile p b
      else List.dropWhile p a ++ b := by
  induction a with
  | nil => simp
  | cons c t ih =>
    rw [List.cons_append, List.dropWhile_cons, List.dropWhile_cons]
    cases hc : p c with
    | true =>
      simp only [if_pos rfl]
      exact ih
    | false =>
      simp

theorem stripRight_cons_of_ne_nil (y : PyStr) (hy : stripRight y ≠ []) (c : Nat) :
    stripRight (c :: y) = c :: stripRight y := by
  unfold stripRight at hy ⊢
  have hne : List.dropWhile isWs y.reverse ≠ [] := by
    intro hc
    rw [hc] at hy
    exact hy rfl
  rw [List.reverse_cons, dropWhile_append_cases, if_neg hne, List.reverse_append]
  rfl

theorem stripRight_cons_of_nonws (c : Nat) (hc : isWs c = false) (y : PyStr) :
    stripRight (c :: y) = c :: stripRight y := by
  rcases hcase : List.dropWhile isWs y.reverse with _ | ⟨d, t⟩
  · unfold stripRight
    rw [List.reverse_cons, dropWhile_append_cases, if_pos hcase,
      List.dropWhile_cons, if_neg (by rw [hc]; simp), hcase]
    rfl
  · refine stripRight_cons_of_ne_nil y ?_ c
    unfold stripRight
    rw [hcase]
    simp

theorem stripRight_word_append (w : PyStr) (hw : ∀ c ∈ w, isWs c = false) (x : PyStr) :
    stripRight (w ++ x) = w ++ stripRight x := by
  induction w with
  | nil => simp
  | cons c t ih =>
    rw [List.cons_append, stripRight_cons_of_nonws c (hw c (by simp)),
      ih fun d hd => hw d (List.mem_cons_of_mem _ hd), List.cons_append]

theorem stripRight_word (w : PyStr) (hw : ∀ c ∈ w, isWs c = false) :
    stripRight w = w :=
  calc stripRight w = stripRight (w ++ []) := by rw [List.append_nil]
    _ = w ++ stripRight [] := stripRight_word_append w hw []
    _ = w := by rw [show stripRight ([] : PyStr) = [] from rfl, List.append_nil]

theorem stripLeft_cons_of_nonws (c : Nat) (hc : isWs c = false) (t : PyStr) :
    stripLeft (c :: t) = c :: t := by
  unfold stripLeft
  rw [List.dropWhile_cons, if_neg (by rw [hc]; simp)]

theorem joinSpace_head (ws : List PyStr)
    (hws : ∀ w ∈ ws, w ≠ [] ∧ ∀ c ∈ w, isWs c = false) (hne : ws ≠ []) :
    ∃ c t, pyJoinSpace ws = c :: t ∧ isWs c = false := by
  rcases ws with _ | ⟨w, rest⟩
  · exact absurd rfl hne
  · have hw := hws w (by simp)
    rcases hwc : w with _ | ⟨c, w2⟩
    · exact absurd hwc hw.1
    · have hc : isWs c = false := by
        refine hw.2 c ?_
        rw [hwc]
        simp
      rcases rest with _ | ⟨w3, rest2⟩
      · exact ⟨c, w2, rfl, hc⟩
      · refine ⟨c, w2 ++ 32 :: pyJoinSpace (w3 :: rest2), ?_, hc⟩
        show (c :: w2) ++ 32 :: pyJoinSpace (w3 :: rest2) =
          c :: (w2 ++ 32 :: pyJoinSpace (w3 :: rest2))
        rw [List.cons_append]

theorem joinSpace_ne_nil (ws : List PyStr)
    (hws : ∀ w ∈ ws, w ≠ [] ∧ ∀ c ∈ w, isWs c = false) (hne : ws ≠ []) :
    pyJoinSpace ws ≠ [] := by
  rcases joinSpace_head ws hws hne with ⟨c, t, heq, _⟩
  rw [heq]
  simp

theorem stripLeft_joinSpace (ws : List PyStr)
    (hws : ∀ w ∈ ws, w ≠ [] ∧ ∀ c ∈ w, isWs c = false) :
    stripLeft (pyJoinSpace ws) = pyJoinSpace ws := by
  rcases hcase : ws with _ | ⟨w, rest⟩
  · rfl
  · rw [← hcase]
    rcases joinSpace_head ws hws (by rw [hcase]; simp) with ⟨c, t, heq, hc⟩
    rw [heq]
    exact stripLeft_cons_of_nonws c hc t

theorem stripRight_joinSpace (ws : List PyStr)
    (hws : ∀ w ∈ ws, w ≠ [] ∧ ∀ c ∈ w, isWs c = false) :
    stripRight (pyJoinSpace ws) = pyJoinSpace ws := by
  induction ws with
  | nil => rfl
  | cons w rest ih =>
    have hw := hws w (by simp)
    have hrest : ∀ w2 ∈ rest, w2 ≠ [] ∧ ∀ c ∈ w2, isWs c = false :=
      fun w2 hw2 => hws w2 (List.mem_cons_of_mem _ hw2)
    rcases hcase : rest with _ | ⟨w2, rest2⟩
    · show stripRight w = w
      exact stripRight_word w hw.2
    · rw [← hcase]
      have hjoin : pyJoinSpace (w :: rest) = w ++ 32 :: pyJoinSpace rest := by
        rw [hcase]
        rfl
      rw [hjoin, stripRight_word_append w hw.2]
      have hJne : pyJoinSpace rest ≠ [] :=
        joinSpace_ne_nil rest hrest (by rw [hcase]; simp)
      have hJstrip : stripRight (pyJoinSpace rest) ≠ [] := by
        rw [ih hrest]
        exact hJne
      rw [stripRight_cons_of_ne_nil _ hJstrip, ih hrest]

theorem Collapsed_strip (r : PyStr) (h : Collapsed r) : pyStrip r = r := by
  unfold Collapsed at h
  unfold pyStrip
  conv_lhs => rw [← h]
  rw [stripLeft_joinSpace _ (pySplit_words r), stripRight_joinSpace _ (pySplit_words r), h]

theorem Collapsed_word_cons (w u : PyStr) (hwne : w ≠ []) (hw : ∀ c ∈ w, isWs c = false)
    (hu : Collapsed u) (hune : pySplit u ≠ []) : Collapsed (w ++ 32 :: u) := by
  unfold Collapsed
  have hsplit : pySplit (w ++ 32 :: u) = w :: pySplit u := by
    unfold pySplit
    rw [List.foldr_append, List.foldr_cons]
    have h32 : splitC 32 (List.foldr splitC [] u) = [] :: List.foldr splitC [] u := by
      unfold splitC
      rw [if_pos (by decide)]
    rw [h32, foldr_splitC_word w hw, List.filter_cons_of_pos (by simpa using hwne)]
  rw [hsplit]
  rcases hcase : pySplit u with _ | ⟨u0, us⟩
  · exact absurd hcase hune
  · rw [← hcase]
    have hjoin : pyJoinSpace (w :: pySplit u) = w ++ 32 :: pyJoinSpace (pySplit u) := by
      rw [hcase]
      rfl
    rw [hjoin, hu]

theorem stripRight_ws_cons (u : PyStr) (hu : stripRight u ≠ []) :
    stripRight (32 :: u) = 32 :: stripRight u :=
  stripRight_cons_of_ne_nil u hu 32

theorem joinSpace_dropLast_collapsed (rest : List PyStr) :
    ∀ w : PyStr, (∀ x ∈ w :: rest, x ≠ [] ∧ ∀ c ∈ x, isWs c = false) →
      Collapsed (pyStrip (pyJoinSpace (w :: rest)).dropLast) := by
  induction rest with
  | nil =>
    intro w hwords
    have hw := hwords w (by simp)
    show Collapsed (pyStrip w.dropLast)
    have hdw : ∀ c ∈ w.dropLast, isWs c = false :=
      fun c hc => hw.2 c (List.dropLast_subset w hc)
    rcases hcase : w.dropLast with _ | ⟨d, t⟩
    · show Collapsed (pyStrip [])
      exact Collapsed_nil
    · have hstrip : pyStrip w.dropLast = w.dropLast := by
        unfold pyStrip
        have h1 : stripLeft w.dropLast = w.dropLast := by
          rw [hcase]
          exact stripLeft_cons_of_nonws d (hdw d (by rw [hcase]; simp)) t
        rw [h1]
        exact stripRight_word _ hdw
      rw [← hcase, hstrip]
      exact Collapsed_word _ (by rw [hcase]; simp) hdw
  | cons w2 rest2 ih =>
    intro w hwords
    have hw := hwords w (by simp)
    have hrest : ∀ x ∈ w2 :: rest2, x ≠ [] ∧ ∀ c ∈ x, isWs c = false :=
      fun x hx => hwords x (List.mem_cons_of_mem _ hx)
    have hJ : pyJoinSpace (w :: w2 :: rest2) = w ++ 32 :: pyJoinSpace (w2 :: rest2) := rfl
    have hJne : pyJoinSpace (w2 :: rest2) ≠ [] := joinSpace_ne_nil _ hrest (by simp)
    rw [hJ, List.dropLast_append_cons]
    have hdlc : (32 :: pyJoinSpace (w2 :: rest2)).dropLast =
        32 :: (pyJoinSpace (w2 :: rest2)).dropLast := by
      rcases hcase : pyJoinSpace (w2 :: rest2) with _ | ⟨d, t⟩
      · exact absurd hcase hJne
      · rw [List.dropLast_cons₂]
    rw [hdlc]
    have hstripL : pyStrip (w ++ 32 :: (pyJoinSpace (w2 :: rest2)).dropLast) =
        stripRight (w ++ 32 :: (pyJoinSpace (w2 :: rest2)).dropLast) := by
      unfold pyStrip
      rcases hwc : w with _ | ⟨c, wt⟩
      · exact absurd hwc hw.1
      · have hc : isWs c = false := by
          refine hw.2 c ?_
          rw [hwc]
          simp
        rw [List.cons_append, stripLeft_cons_of_nonws c hc _, ← List.cons_append]
    rw [hstripL, stripRight_word_append w hw.2]
    rcases hdl : (pyJoinSpace (w2 :: rest2)).dropLast with _ | ⟨d, t⟩
    · have h32 : stripRight [32] = [] := rfl
      rw [h32, List.append_nil]
      exact Collapsed_word w hw.1 hw.2
    · have hdhead : isWs d = false := by
        rcases joinSpace_head (w2 :: rest2) hrest (by simp) with ⟨c0, t0, heq, hc0⟩
        rcases ht0 : t0 with _ | ⟨e, t1⟩
        · rw [ht0] at heq
          rw [heq] at hdl
          simp at hdl
        · rw [ht0] at heq
          rw [heq, List.dropLast_cons₂] at hdl
          have hd0 : d = c0 := by
            injection hdl with h1 _
            exact h1.symm
          rw [hd0]
          exact hc0
      have hIH : Collapsed (pyStrip (pyJoinSpace (w2 :: rest2)).dropLast) := ih w2 hrest
      rw [hdl] at hIH
      have hstrip2 : pyStrip (d :: t) = stripRight (d :: t) := by
        unfold pyStrip
        rw [stripLeft_cons_of_nonws d hdhead t]
      rw [hstrip2] at hIH
      have hu : stripRight (d :: t) = d :: stripRight t :=
        stripRight_cons_of_nonws d hdhead t
      have hune : stripRight (d :: t) ≠ [] := by
        rw [hu]
        simp
      rw [stripRight_ws_cons (d :: t) hune]
      refine Collapsed_word_cons w (stripRight (d :: t)) hw.1 hw.2 hIH ?_
      rw [hu]
      exact pySplit_cons_nonws_ne_nil d (stripRight t) hdhead

theorem Collapsed_strip_dropLast (r : PyStr) (h : Collapsed r) :
    Collapsed (pyStrip r.dropLast) := by
  rcases hws : pySplit r with _ | ⟨w, rest⟩
  · have hr : r = [] := by
      unfold Collapsed at h
      rw [hws] at h
      exact h.symm
    rw [hr]
    exact Collapsed_nil
  · have hr : r = pyJoinSpace (w :: rest) := by
      unfold Collapsed at h
      rw [hws] at h
      exact h.symm
    have hwords : ∀ w2 ∈ w :: rest, w2 ≠ [] ∧ ∀ c ∈ w2, isWs c = false := by
      rw [← hws]
      exact pySplit_words r
    rw [hr]
    exact joinSpace_dropLast_collapsed rest w hwords

/-! ### C3: character membership and replace lemmas -/

theorem mem_stripLeft_subset (s : PyStr) (c : Nat) (h : c ∈ stripLeft s) : c ∈ s :=
  (List.dropWhile_sublist isWs).subset h

theorem mem_stripRight_subset (s : PyStr) (c : Nat) (h : c ∈ stripRight s) : c ∈ s := by
  unfold stripRight at h
  rw [List.mem_reverse] at h
  have := (List.dropWhile_sublist isWs).subset h
  rwa [List.mem_reverse] at this

theorem mem_pyStrip_subset (s : PyStr) (c : Nat) (h : c ∈ pyStrip s) : c ∈ s :=
  mem_stripLeft_subset s c (mem_stripRight_subset _ c h)

theorem mem_foldr_splitC (s : PyStr) :
    ∀ (acc : List PyStr) (w : PyStr) (c : Nat), w ∈ List.foldr splitC acc s → c ∈ w →
      c ∈ s ∨ ∃ w2 ∈ acc, c ∈ w2 := by
  induction s with
  | nil => exact fun acc w c hw hc => Or.inr ⟨w, hw, hc⟩
  | cons a t ih =>
    intro acc w c hw hc
    rw [List.foldr_cons] at hw
    cases haw : isWs a with
    | true =>
      have hstep : splitC a (List.foldr splitC acc t) = [] :: List.foldr splitC acc t := by
        unfold splitC
        rw [if_pos haw]
      rw [hstep] at hw
      rcases List.mem_cons.mp hw with hw | hw
      · subst hw
        simp at hc
      · rcases ih acc w c hw hc with h | h
        · exact Or.inl (List.mem_cons_of_mem _ h)
        · exact Or.inr h
    | false =>
      rcases hfold : List.foldr splitC acc t with _ | ⟨w0, ws0⟩
      · rw [hfold] at hw
        have hstep : splitC a ([] : List PyStr) = [[a]] := by
          unfold splitC
          rw [if_neg (by rw [haw]; simp)]
        rw [hstep] at hw
        rcases List.mem_singleton.mp hw with rfl
        rcases List.mem_singleton.mp hc with rfl
        exact Or.inl (by simp)
      · rw [hfold] at hw
        have hstep : splitC a (w0 :: ws0) = (a :: w0) :: ws0 := by
          unfold splitC
          rw [if_neg (by rw [haw]; simp)]
        rw [hstep] at hw
        rcases List.mem_cons.mp hw with hw | hw
        · subst hw
          rcases List.mem_cons.mp hc with hc | hc
          · subst hc
            exact Or.inl (by simp)
          · rcases ih acc w0 c (by rw [hfold]; simp) hc with h | h
            · exact Or.inl (List.mem_cons_of_mem _ h)
            · exact Or.inr h
        · rcases ih acc w c (by rw [hfold]; exact List.mem_cons_of_mem _ hw) hc with h | h
          · exact Or.inl (List.mem_cons_of_mem _ h)
          · exact Or.inr h

theorem mem_pySplit_subset (s : PyStr) (w : PyStr) (c : Nat) (hw : w ∈ pySplit s)
    (hc : c ∈ w) : c ∈ s := by
  have hmem := (List.mem_filter.mp hw).1
  rcases mem_foldr_splitC s [] w c hmem hc with h | h
  · exact h
  · rcases h with ⟨w2, hw2, _⟩
    simp at hw2

theorem mem_joinSpace (ws : List PyStr) (c : Nat) (h : c ∈ pyJoinSpace ws) :
    (∃ w ∈ ws, c ∈ w) ∨ c = 32 := by
  induction ws with
  | nil => simp [pyJoinSpace] at h
  | cons w rest ih =>
    cases rest with
    | nil =>
      have hj : pyJoinSpace [w] = w := rfl
      rw [hj] at h
      exact Or.inl ⟨w, by simp, h⟩
    | cons w2 rest2 =>
      have hj : pyJoinSpace (w :: w2 :: rest2) = w ++ 32 :: pyJoinSpace (w2 :: rest2) := rfl
      rw [hj] at h
      rcases List.mem_append.mp h with h | h
      · exact Or.inl ⟨w, by simp, h⟩
      · rcases List.mem_cons.mp h with h | h
        · exact Or.inr h
        · rcases ih h with ⟨w3, hw3, hc3⟩ | h
          · exact Or.inl ⟨w3, List.mem_cons_of_mem _ hw3, hc3⟩
          · exact Or.inr h

theorem mem_pyReplaceF_subset :
    ∀ (fuel : Nat) (s pat : PyStr) (c : Nat), c ∈ pyReplaceF fuel s pat [] → c ∈ s := by
  intro fuel
  induction fuel with
  | zero => exact fun s pat c h => h
  | succ fuel ih =>
    intro s pat c h
    rcases s with _ | ⟨c0, cs⟩
    · have hz : pyReplaceF (fuel + 1) [] pat [] = [] := rfl
      rw [hz] at h
      exact h
    · unfold pyReplaceF at h
      split at h
      · rw [List.nil_append] at h
        exact List.drop_subset _ _ (ih _ pat c h)
      · rcases List.mem_cons.mp h with h | h
        · subst h
          simp
        · exact List.mem_cons_of_mem _ (ih cs pat c h)

theorem mem_foldl_replace_subset :
    ∀ (ws : List PyStr) (r : PyStr) (c : Nat),
      c ∈ ws.foldl (fun n w => pyReplace n w []) r → c ∈ r := by
  intro ws
  induction ws with
  | nil => exact fun r c h => h
  | cons w ws ih =>
    intro r c h
    rw [List.foldl_cons] at h
    exact mem_pyReplaceF_subset _ _ _ _ (ih (pyReplace r w []) c h)

theorem LowerFixed_pyLower (s : PyStr) : LowerFixed (pyLower s) := by
  intro c hc
  rcases List.mem_map.mp hc with ⟨d, _, rfl⟩
  exact pyCharLower_idem d

theorem LowerFixed_eq (r : PyStr) (h : LowerFixed r) : pyLower r = r :=
  (List.map_congr_left h).trans (List.map_id r)

theorem pyReplaceF_no_occur :
    ∀ (fuel : Nat) (s pat repl : PyStr), containsSub s pat = false →
      pyReplaceF fuel s pat repl = s := by
  intro fuel
  induction fuel with
  | zero => exact fun s _ _ _ => rfl
  | succ fuel ih =>
    intro s pat repl h
    rcases s with _ | ⟨c0, cs⟩
    · rfl
    · unfold containsSub at h
      rcases Bool.or_eq_false_iff.mp h with ⟨hsw, hcs⟩
      unfold pyReplaceF
      rw [if_neg (by rw [hsw]; simp)]
      rw [ih cs pat repl hcs]

theorem foldl_replace_no_occur (ws : List PyStr) (r : PyStr)
    (h : ∀ w ∈ ws, containsSub r w = false) :
    ws.foldl (fun n w => pyReplace n w []) r = r := by
  induction ws with
  | nil => rfl
  | cons w ws ih =>
    rw [List.foldl_cons]
    unfold pyReplace
    rw [pyReplaceF_no_occur _ r w [] (h w (by simp))]
    exact ih fun w2 hw2 => h w2 (List.mem_cons_of_mem _ hw2)

theorem synonyms_val_props (k v : PyStr) (h : alookup synonyms k = some v) :
    Collapsed v ∧ LowerFixed v := by
  have hm := alookup_mem _ _ _ h
  fin_cases hm <;>
    exact ⟨by unfold Collapsed; decide, by unfold LowerFixed; decide⟩

/-! ### C3: the normalizer's output invariants and the amended claim -/

theorem normalize_collapsed (x : PyStr) : Collapsed (normalize_ingredient_name x) := by
  by_cases hs : pyStrip x = []
  · simp only [normalize_ingredient_name, if_pos hs]
    exact Collapsed_nil
  · simp only [normalize_ingredient_name, if_neg hs]
    set name2 := pyJoinSpace (pySplit
      (removeWords.foldl (fun n w => pyReplace n w []) (pyLower (pyStrip x)))) with hn2
    have hcol3 : Collapsed ((alookup synonyms name2).getD name2) := by
      rcases halk : alookup synonyms name2 with _ | v
      · rw [Option.getD_none, hn2]
        exact collapse_Collapsed _
      · rw [Option.getD_some]
        exact (synonyms_val_props name2 v halk).1
    split
    · exact Collapsed_strip_dropLast _ hcol3
    · rw [Collapsed_strip _ hcol3]
      exact hcol3

theorem normalize_lowerFixed (x : PyStr) : LowerFixed (normalize_ingredient_name x) := by
  by_cases hs : pyStrip x = []
  · simp only [normalize_ingredient_name, if_pos hs]
    intro c hc
    simp at hc
  · simp only [normalize_ingredient_name, if_neg hs]
    set name2 := pyJoinSpace (pySplit
      (removeWords.foldl (fun n w => pyReplace n w []) (pyLower (pyStrip x)))) with hn2
    set name3 := (alookup synonyms name2).getD name2 with hn3
    have hlf3 : LowerFixed name3 := by
      rcases halk : alookup synonyms name2 with _ | v
      · rw [hn3, halk, Option.getD_none, hn2]
        intro c hc
        rcases mem_joinSpace _ c hc with ⟨w, hw, hcw⟩ | h32
        · have hc1 := mem_pySplit_subset _ w c hw hcw
          have hc0 := mem_foldl_replace_subset removeWords _ c hc1
          exact LowerFixed_pyLower _ c hc0
        · rw [h32]
          decide
      · rw [hn3, halk, Option.getD_some]
        exact (synonyms_val_props name2 v halk).2
    intro c hc
    have hc4 := mem_pyStrip_subset _ c hc
    split at hc4
    · exact hlf3 c (List.dropLast_subset _ hc4)
    · exact hlf3 c hc4

theorem normalize_fix (r : PyStr) (hcol : Collapsed r) (hlf : LowerFixed r)
    (h1 : ∀ w ∈ removeWords, containsSub r w = false)
    (h2 : alookup synonyms r = none)
    (h3 : ¬(3 < r.length ∧ r.getLast? = some 115)) :
    normalize_ingredient_name r = r := by
  by_cases hr : pyStrip r = []
  · have hre : r = [] := by
      rw [← Collapsed_strip r hcol]
      exact hr
    rw [hre]
    rfl
  · have hstrip : pyStrip r = r := Collapsed_strip r hcol
    have hlow : pyLower r = r := LowerFixed_eq r hlf
    have h0 : pyLower (pyStrip r) = r := by rw [hstrip, hlow]
    have hname1 : removeWords.foldl (fun n w => pyReplace n w []) r = r :=
      foldl_replace_no_occur removeWords r h1
    have happly : normalize_ingredient_name r = pyStrip r := by
      unfold Collapsed at hcol
      simp only [normalize_ingredient_name, if_neg hr, h0, hname1, hcol, h2,
        Option.getD_none, if_neg h3]
    rw [happly, hstrip]

/-- C3 (amended): the normalizer is idempotent on every input whose
normalized form contains no descriptor word as a substring, is not a key of
the synonym table, and does not both exceed three characters and end in
the letter s; outside those conditions a second application can shorten or
remap the result further, so unconditional idempotence fails. -/
theorem claim_C3_amended (x : PyStr)
    (h1 : ∀ w ∈ removeWords, containsSub (normalize_ingredient_name x) w = false)
    (h2 : alookup synonyms (normalize_ingredient_name x) = none)
    (h3 : ¬(3 < (normalize_ingredient_name x).length ∧
      (normalize_ingredient_name x).getLast? = some 115)) :
    normalize_ingredient_name (normalize_ingredient_name x) = normalize_ingredient_name x :=
  normalize_fix _ (normalize_collapsed x) (normalize_lowerFixed x) h1 h2 h3

/-- C3 witness: `Fresh Tomato` normalizes to `tomato`, which satisfies all
three side conditions, and a second pass fixes it. -/
theorem claim_C3_witness :
    (∀ w ∈ removeWords,
      containsSub (normalize_ingredient_name (strL "Fresh Tomato")) w = false) ∧
    alookup synonyms (normalize_ingredient_name (strL "Fresh Tomato")) = none ∧
    ¬(3 < (normalize_ingredient_name (strL "Fresh Tomato")).length ∧
      (normalize_ingredient_name (strL "Fresh Tomato")).getLast? = some 115) ∧
    normalize_ingredient_name (normalize_ingredient_name (strL "Fresh Tomato")) =
      normalize_ingredient_name (strL "Fresh Tomato") :=
  ⟨by decide, by decide, by decide,
   claim_C3_amended (strL "Fresh Tomato") (by decide) (by decide) (by decide)⟩

/-- C3 counterexample: `glass` normalizes to `glas` (trailing s dropped),
and a second application drops another s, giving `gla` — the normalizer is
not idempotent on all strings. -/
theorem claim_C3_counterexample :
    normalize_ingredient_name (strL "glass") = strL "glas" ∧
    normalize_ingredient_name (normalize_ingredient_name (strL "glass")) = strL "gla" ∧
    normalize_ingredient_name (normalize_ingredient_name (strL "glass")) ≠
      normalize_ingredient_name (strL "glass") := by
  refine ⟨by decide, by decide, by decide⟩

end DDM
